import Mathlib

/-!
Verification of the qmd markdown search engine against its specification.

The TypeScript sources are shallowly embedded: JavaScript strings are
modelled as lists of UTF-16 code units (`List Nat`), floating point score
arithmetic as exact rationals, the SQLite tables as Lean lists, and the
JavaScript `Map` (which preserves insertion order) as an association list.
-/

namespace Qmd

/-! ## Chunker (src/utils/content.ts, `chunkDocument`)

A JavaScript string is a sequence of UTF-16 code units; `content[i]` is a
single code unit and `content.length` counts code units.  `TextEncoder`
encodes a lone surrogate code unit as U+FFFD (3 bytes) and a proper
surrogate pair as 4 bytes. -/

/-- Chunk record mirroring the `{ text, pos }` objects built by `chunkDocument`. -/
structure Chunk where
  text : List Nat
  pos : Nat
  deriving Repr, DecidableEq

/-- Number of UTF-8 bytes produced by `TextEncoder` for a single UTF-16 code
unit encoded on its own (`encoder.encode(content[i]).length`).  A lone
surrogate (0xD800–0xDFFF) encodes as the 3-byte replacement character. -/
def unitLen (u : Nat) : Nat :=
  if u < 0x80 then 1 else if u < 0x800 then 2 else 3

/-- Code unit is a high surrogate. -/
def isHigh (u : Nat) : Bool := 0xD800 ≤ u && u ≤ 0xDBFF

/-- Code unit is a low surrogate. -/
def isLow (u : Nat) : Bool := 0xDC00 ≤ u && u ≤ 0xDFFF

/-- Number of UTF-8 bytes produced by `TextEncoder` for a whole string
(`encoder.encode(content).length`): surrogate pairs encode as 4 bytes,
lone surrogates as 3 (replacement character). -/
def utf8Len : List Nat → Nat
  | [] => 0
  | u :: rest =>
    if isHigh u then
      match rest with
      | v :: rest2 => if isLow v then 4 + utf8Len rest2 else 3 + utf8Len (v :: rest2)
      | [] => 3
    else unitLen u + utf8Len rest

/-- Total per-unit byte length of a list of code units. -/
def sumUnitLen (l : List Nat) : Nat := (l.map unitLen).sum

/-- Inner loop of `chunkDocument` (lines 50–55): number of code units taken
starting from byte count `acc` while staying within `maxB` bytes. -/
def scanLen (maxB : Nat) : Nat → List Nat → Nat
  | _, [] => 0
  | acc, u :: rest =>
    if acc < maxB then
      if maxB < acc + unitLen u then 0 else 1 + scanLen maxB (acc + unitLen u) rest
    else 0

/-- Full-pattern occurrence test used by `lastIdx` (JavaScript
`String.prototype.lastIndexOf` semantics: the pattern must fit entirely). -/
def occursAt (l pat : List Nat) (i : Nat) : Bool :=
  decide ((l.drop i).take pat.length = pat)

/-- JavaScript `slice.lastIndexOf(pat)`: the largest index at which `pat`
occurs in `l`, or `-1` when it does not occur. -/
def lastIdx (l pat : List Nat) : Int :=
  (List.range (l.length + 1)).foldl (fun acc i => if occursAt l pat i then (i : Int) else acc) (-1)

/-- Lines 58–84 of content.ts: the smart-boundary break point for a scanned
slice, or `-1` when no boundary qualifies.  The comparisons
`x > slice.length * 0.5` and `x > slice.length * 0.3` are exact in binary64
for every length occurring in a JavaScript string, so they are rendered as
the integer comparisons `L < 2*x` and `3*L < 10*x`. -/
def breakAdjust (slice : List Nat) : Int :=
  let L : Int := (slice.length : Int)
  let pb := lastIdx slice [10, 10]
  let se := max (lastIdx slice [46, 32]) (max (lastIdx slice [46, 10])
    (max (lastIdx slice [63, 32]) (max (lastIdx slice [63, 10])
      (max (lastIdx slice [33, 32]) (lastIdx slice [33, 10])))))
  let lb := lastIdx slice [10]
  let sb := lastIdx slice [32]
  if L < 2 * pb then pb + 2
  else if L < 2 * se then se + 2
  else if 3 * L < 10 * lb then lb + 1
  else if 3 * L < 10 * sb then sb + 1
  else -1

/-- Lines 46–89 of content.ts, one outer-loop iteration on the remaining
suffix: the natural-boundary adjustment applies only when the scan stopped
strictly inside the document and consumed at least one code unit. -/
def stepCore (maxB : Nat) (r : List Nat) : Nat :=
  let s := scanLen maxB 0 r
  if s < r.length ∧ 0 < s then
    let bp := breakAdjust (r.take s)
    if 0 < bp then bp.toNat else s
  else s

/-- Lines 87–89 of content.ts: guard against zero advance. -/
def stepLen (maxB : Nat) (r : List Nat) : Nat :=
  let n := stepCore maxB r
  if n = 0 then 1 else n

theorem one_le_stepLen (maxB : Nat) (r : List Nat) : 1 ≤ stepLen maxB r := by
  simp only [stepLen]
  split <;> omega

/-- Outer `while` loop of `chunkDocument`: emit chunks until the remaining
suffix `r` is exhausted; `pos` is the index of `r`'s head in the original
document. -/
def chunkLoop (maxB : Nat) : List Nat → Nat → List Chunk
  | [], _ => []
  | u :: rest, pos =>
    let n := stepLen maxB (u :: rest)
    ⟨(u :: rest).take n, pos⟩ :: chunkLoop maxB ((u :: rest).drop n) (pos + n)
termination_by r _ => r.length
decreasing_by
  have h1 := one_le_stepLen maxB (u :: rest)
  simp [List.length_drop]
  omega

/-- Default chunk byte budget (`CHUNK_BYTE_SIZE` in src/config). -/
def CHUNK_BYTE_SIZE : Nat := 6 * 1024

/-- Embedding of `chunkDocument(content, maxBytes)` from src/utils/content.ts. -/
def chunkDocument (content : List Nat) (maxB : Nat) : List Chunk :=
  if utf8Len content ≤ maxB then [⟨content, 0⟩] else chunkLoop maxB content 0

theorem chunkLoop_join (maxB : Nat) (r : List Nat) (pos : Nat) :
    ((chunkLoop maxB r pos).map Chunk.text).flatten = r := by
  induction r, pos using chunkLoop.induct maxB with
  | case1 pos => simp [chunkLoop]
  | case2 u rest pos n ih =>
    simp only [chunkLoop, List.map_cons, List.flatten_cons]
    rw [ih]
    exact List.take_append_drop _ _

theorem chunkLoop_substring (maxB : Nat) (r : List Nat) (pos : Nat) :
    ∀ c ∈ chunkLoop maxB r pos,
      pos ≤ c.pos ∧ (r.drop (c.pos - pos)).take c.text.length = c.text := by
  induction r, pos using chunkLoop.induct maxB with
  | case1 pos => simp [chunkLoop]
  | case2 u rest pos n ih =>
    intro c hc
    rw [chunkLoop] at hc
    rcases List.mem_cons.mp hc with hc | hc
    · subst hc
      refine ⟨Nat.le_refl _, ?_⟩
      simp only [Nat.sub_self, List.drop_zero, List.length_take]
      rw [List.take_eq_take]
      simp [Nat.min_assoc]
    · obtain ⟨h1, h2⟩ := ih c hc
      refine ⟨by omega, ?_⟩
      rw [List.drop_drop] at h2
      have heq : stepLen maxB (u :: rest) + (c.pos - (pos + stepLen maxB (u :: rest)))
          = c.pos - pos := by omega
      rwa [heq] at h2

/-- C1: for every document body and every positive byte limit, the chunks
returned by `chunkDocument` partition the body exactly: concatenating the
chunk texts in order yields the original body, and for every returned chunk
`c`, the substring of the body starting at character index `c.pos` of length
`c.text.length` equals `c.text`. -/
theorem chunkDocument_partitions (content : List Nat) (maxB : Nat) (hpos : 0 < maxB) :
    ((chunkDocument content maxB).map Chunk.text).flatten = content ∧
    ∀ c ∈ chunkDocument content maxB, (content.drop c.pos).take c.text.length = c.text := by
  constructor
  · unfold chunkDocument
    split
    · simp
    · exact chunkLoop_join maxB content 0
  · intro c hc
    unfold chunkDocument at hc
    split at hc
    · rcases List.mem_singleton.mp hc with rfl
      simp
    · have h := (chunkLoop_substring maxB content 0 c hc).2
      simpa using h

/-- Witness for C1 at a concrete input. -/
theorem chunkDocument_partitions_witness :
    (0 : Nat) < 2 ∧
    ((((chunkDocument [97, 98, 99] 2).map Chunk.text).flatten = [97, 98, 99]) ∧
      ∀ c ∈ chunkDocument [97, 98, 99] 2,
        (([97, 98, 99] : List Nat).drop c.pos).take c.text.length = c.text) :=
  ⟨by decide, chunkDocument_partitions [97, 98, 99] 2 (by decide)⟩

theorem unitLen_le_three (u : Nat) : unitLen u ≤ 3 := by
  unfold unitLen
  split
  · omega
  · split <;> omega

theorem sumUnitLen_nil : sumUnitLen [] = 0 := by
  simp [sumUnitLen]

theorem sumUnitLen_cons (u : Nat) (l : List Nat) :
    sumUnitLen (u :: l) = unitLen u + sumUnitLen l := by
  simp [sumUnitLen]

theorem unitLen_of_high (u : Nat) (hu : isHigh u = true) : unitLen u = 3 := by
  simp [isHigh] at hu
  unfold unitLen
  rw [if_neg (by omega), if_neg (by omega)]

theorem unitLen_of_low (u : Nat) (hu : isLow u = true) : unitLen u = 3 := by
  simp [isLow] at hu
  unfold unitLen
  rw [if_neg (by omega), if_neg (by omega)]

theorem utf8Len_le_sumUnitLen (l : List Nat) : utf8Len l ≤ sumUnitLen l := by
  induction l using utf8Len.induct with
  | case1 => simp [utf8Len, sumUnitLen]
  | case2 u hu v rest2 hv ih =>
    have e1 : utf8Len (u :: v :: rest2) = 4 + utf8Len rest2 := by
      simp [utf8Len, hu, hv]
    rw [e1, sumUnitLen_cons, sumUnitLen_cons, unitLen_of_high u hu, unitLen_of_low v hv]
    omega
  | case3 u hu v rest2 hv ih =>
    have e1 : utf8Len (u :: v :: rest2) = 3 + utf8Len (v :: rest2) := by
      simp [utf8Len, hu, hv]
    rw [e1, sumUnitLen_cons, unitLen_of_high u hu]
    omega
  | case4 u hu =>
    have e1 : utf8Len [u] = 3 := by simp [utf8Len, hu]
    rw [e1, sumUnitLen_cons, sumUnitLen_nil, unitLen_of_high u hu]
  | case5 u rest hu ih =>
    have e1 : utf8Len (u :: rest) = unitLen u + utf8Len rest := by
      rw [utf8Len.eq_def]
      simp [hu]
    rw [e1, sumUnitLen_cons]
    omega

theorem scanLen_le_length (maxB : Nat) : ∀ (r : List Nat) (acc : Nat),
    scanLen maxB acc r ≤ r.length := by
  intro r
  induction r with
  | nil => intro acc; simp [scanLen]
  | cons u rest ih =>
    intro acc
    simp only [scanLen, List.length_cons]
    split
    · split
      · omega
      · have := ih (acc + unitLen u); omega
    · omega

theorem scanLen_bytes (maxB : Nat) : ∀ (r : List Nat) (acc : Nat), acc ≤ maxB →
    acc + sumUnitLen (r.take (scanLen maxB acc r)) ≤ maxB := by
  intro r
  induction r with
  | nil => intro acc h; simpa [scanLen, sumUnitLen] using h
  | cons u rest ih =>
    intro acc h
    simp only [scanLen]
    split
    · split
      · simpa [sumUnitLen] using h
      · have hih := ih (acc + unitLen u) (by omega)
        have hcomm : 1 + scanLen maxB (acc + unitLen u) rest
            = scanLen maxB (acc + unitLen u) rest + 1 := Nat.add_comm _ _
        rw [hcomm, List.take_succ_cons, sumUnitLen_cons]
        omega
    · simpa [sumUnitLen] using h

theorem scanLen_pos (maxB : Nat) (r : List Nat) (h3 : 3 ≤ maxB) (hr : r ≠ []) :
    0 < scanLen maxB 0 r := by
  match r with
  | [] => exact absurd rfl hr
  | u :: rest =>
    have h1 := unitLen_le_three u
    simp only [scanLen]
    have hlt : 0 < maxB := by omega
    rw [if_pos hlt, if_neg (by omega)]
    omega

theorem occursAt_bound (l pat : List Nat) (i : Nat) (hp : pat ≠ [])
    (h : occursAt l pat i = true) : i + pat.length ≤ l.length := by
  unfold occursAt at h
  rw [decide_eq_true_eq] at h
  have hlen : ((l.drop i).take pat.length).length = pat.length := by rw [h]
  have hpos : 0 < pat.length := List.length_pos.mpr hp
  simp only [List.length_take, List.length_drop] at hlen
  omega

theorem lastIdx_spec (l pat : List Nat) (hp : pat ≠ []) :
    lastIdx l pat = -1 ∨
      (0 ≤ lastIdx l pat ∧ lastIdx l pat + (pat.length : Int) ≤ (l.length : Int)) := by
  unfold lastIdx
  generalize List.range (l.length + 1) = is
  suffices h : ∀ (is : List Nat) (acc : Int),
      (acc = -1 ∨ (0 ≤ acc ∧ acc + (pat.length : Int) ≤ (l.length : Int))) →
      (is.foldl (fun acc i => if occursAt l pat i then (i : Int) else acc) acc = -1 ∨
        (0 ≤ is.foldl (fun acc i => if occursAt l pat i then (i : Int) else acc) acc ∧
          is.foldl (fun acc i => if occursAt l pat i then (i : Int) else acc) acc
            + (pat.length : Int) ≤ (l.length : Int))) by
    exact h is (-1) (Or.inl rfl)
  intro is
  induction is with
  | nil => intro acc h; exact h
  | cons i is ih =>
    intro acc h
    simp only [List.foldl_cons]
    apply ih
    by_cases hocc : occursAt l pat i = true
    · rw [if_pos hocc]
      right
      have := occursAt_bound l pat i hp hocc
      constructor
      · exact Int.ofNat_nonneg i
      · push_cast
        omega
    · rw [if_neg hocc]
      exact h

theorem max_break_bound {a b L c : Int} (ha : a < 0 ∨ a + c ≤ L) (hb : b < 0 ∨ b + c ≤ L) :
    max a b < 0 ∨ max a b + c ≤ L := by
  rcases ha with ha | ha <;> rcases hb with hb | hb <;> omega

theorem breakAdjust_spec (slice : List Nat) :
    breakAdjust slice = -1 ∨
      (0 < breakAdjust slice ∧ breakAdjust slice ≤ (slice.length : Int)) := by
  have h2 : ∀ pat : List Nat, pat.length = 2 →
      lastIdx slice pat < 0 ∨ lastIdx slice pat + 2 ≤ (slice.length : Int) := by
    intro pat hpat
    have hp : pat ≠ [] := by intro h; subst h; simp at hpat
    rcases lastIdx_spec slice pat hp with h | ⟨h1, h2⟩
    · left; omega
    · right; rw [hpat] at h2; exact_mod_cast h2
  have h1 : ∀ pat : List Nat, pat.length = 1 →
      lastIdx slice pat < 0 ∨ lastIdx slice pat + 1 ≤ (slice.length : Int) := by
    intro pat hpat
    have hp : pat ≠ [] := by intro h; subst h; simp at hpat
    rcases lastIdx_spec slice pat hp with h | ⟨h1, h2⟩
    · left; omega
    · right; rw [hpat] at h2; exact_mod_cast h2
  have hpb := h2 [10, 10] rfl
  have hse := max_break_bound (h2 [46, 32] rfl) (max_break_bound (h2 [46, 10] rfl)
    (max_break_bound (h2 [63, 32] rfl) (max_break_bound (h2 [63, 10] rfl)
      (max_break_bound (h2 [33, 32] rfl) (h2 [33, 10] rfl)))))
  have hlb := h1 [10] rfl
  have hsb := h1 [32] rfl
  simp only [breakAdjust]
  split
  · rename_i hc; right; omega
  · split
    · rename_i hc; right; omega
    · split
      · rename_i hc; right; omega
      · split
        · rename_i hc; right; omega
        · left; rfl

theorem stepLen_le_scan (maxB : Nat) (r : List Nat) (h3 : 3 ≤ maxB) (hr : r ≠ []) :
    stepLen maxB r ≤ scanLen maxB 0 r := by
  have hpos := scanLen_pos maxB r h3 hr
  have hcore : stepCore maxB r ≤ scanLen maxB 0 r ∧ 0 < stepCore maxB r := by
    simp only [stepCore]
    split
    · rename_i hc
      obtain ⟨hlt, hs⟩ := hc
      have hslice : (r.take (scanLen maxB 0 r)).length = scanLen maxB 0 r := by
        simp [List.length_take]
        omega
      rcases breakAdjust_spec (r.take (scanLen maxB 0 r)) with hb | ⟨hb1, hb2⟩
      · rw [if_neg (by omega)]
        exact ⟨Nat.le_refl _, hs⟩
      · rw [if_pos hb1]
        rw [hslice] at hb2
        constructor
        · exact Int.toNat_le.mpr hb2
        · omega
    · exact ⟨Nat.le_refl _, hpos⟩
  simp only [stepLen]
  split
  · omega
  · exact hcore.1

theorem sumUnitLen_take_le (l : List Nat) (n : Nat) : sumUnitLen (l.take n) ≤ sumUnitLen l := by
  unfold sumUnitLen
  conv_rhs => rw [← List.take_append_drop n l]
  rw [List.map_append, List.sum_append]
  omega

theorem sumUnitLen_take_mono (l : List Nat) {m n : Nat} (h : m ≤ n) :
    sumUnitLen (l.take m) ≤ sumUnitLen (l.take n) := by
  have : l.take m = (l.take n).take m := by
    rw [List.take_take, Nat.min_eq_left h]
  rw [this]
  exact sumUnitLen_take_le _ _

theorem take_stepLen_bytes (maxB : Nat) (r : List Nat) (h3 : 3 ≤ maxB) (hr : r ≠ []) :
    sumUnitLen (r.take (stepLen maxB r)) ≤ maxB := by
  have h1 := scanLen_bytes maxB r 0 (by omega)
  have h2 := stepLen_le_scan maxB r h3 hr
  have h3m := sumUnitLen_take_mono r h2
  omega

theorem chunkLoop_bytes (maxB : Nat) (r : List Nat) (pos : Nat) (h3 : 3 ≤ maxB) :
    ∀ c ∈ chunkLoop maxB r pos, utf8Len c.text ≤ maxB := by
  induction r, pos using chunkLoop.induct maxB with
  | case1 pos => simp [chunkLoop]
  | case2 u rest pos n ih =>
    intro c hc
    rw [chunkLoop] at hc
    rcases List.mem_cons.mp hc with hc | hc
    · subst hc
      have hb := take_stepLen_bytes maxB (u :: rest) h3 (by simp)
      have hu := utf8Len_le_sumUnitLen ((u :: rest).take (stepLen maxB (u :: rest)))
      simp only []
      omega
    · exact ih c hc

/-- C6: every chunk emitted by `chunkDocument` fits within the byte limit in
UTF-8 whenever the limit is at least 3 bytes (every single UTF-16 code unit
encodes to at most 3 UTF-8 bytes; the default `CHUNK_BYTE_SIZE = 6144`
satisfies this), and a body whose total UTF-8 length is at most the limit —
in particular a body of exactly `CHUNK_BYTE_SIZE` bytes under the default
limit — yields the single chunk `[(0, body)]`. -/
theorem chunkDocument_size (content : List Nat) (maxB : Nat) (h3 : 3 ≤ maxB) :
    (∀ c ∈ chunkDocument content maxB, utf8Len c.text ≤ maxB) ∧
    (utf8Len content ≤ maxB → chunkDocument content maxB = [⟨content, 0⟩]) ∧
    (utf8Len content = CHUNK_BYTE_SIZE →
      chunkDocument content CHUNK_BYTE_SIZE = [⟨content, 0⟩]) := by
  refine ⟨?_, ?_, ?_⟩
  · intro c hc
    unfold chunkDocument at hc
    split at hc
    · rcases List.mem_singleton.mp hc with rfl
      simpa using ‹utf8Len content ≤ maxB›
    · exact chunkLoop_bytes maxB content 0 h3 c hc
  · intro h
    unfold chunkDocument
    rw [if_pos h]
  · intro h
    unfold chunkDocument
    rw [if_pos (Nat.le_of_eq h)]

/-- Witness for C6 at a concrete input. -/
theorem chunkDocument_size_witness :
    (3 : Nat) ≤ 3 ∧
    ((∀ c ∈ chunkDocument [97, 98, 99, 100] 3, utf8Len c.text ≤ 3) ∧
      (utf8Len [97, 98, 99, 100] ≤ 3 → chunkDocument [97, 98, 99, 100] 3 = [⟨[97, 98, 99, 100], 0⟩]) ∧
      (utf8Len [97, 98, 99, 100] = CHUNK_BYTE_SIZE →
        chunkDocument [97, 98, 99, 100] CHUNK_BYTE_SIZE = [⟨[97, 98, 99, 100], 0⟩])) :=
  ⟨by decide, chunkDocument_size [97, 98, 99, 100] 3 (by decide)⟩

/-! ## Document repository cleanup (part_000, `DocumentRepository.cleanupOrphanedContent`) -/

/-- Row of the `content` table. -/
structure ContentRow where
  hash : String
  doc : String
  deriving Repr, DecidableEq

/-- Row of the `documents` table (the fields the cleanup query reads). -/
structure DocumentRow where
  hash : String
  active : Bool
  deriving Repr, DecidableEq

/-- State of the two tables touched by `cleanupOrphanedContent`. -/
structure Db where
  content : List ContentRow
  documents : List DocumentRow
  deriving Repr, DecidableEq

/-- Subquery `SELECT DISTINCT hash FROM documents WHERE active = 1` (as the
set of its members). -/
def activeHashes (db : Db) : List String :=
  (db.documents.filter (fun d => d.active)).map (fun d => d.hash)

/-- Embedding of `cleanupOrphanedContent`: `DELETE FROM content WHERE hash
NOT IN (SELECT DISTINCT hash FROM documents WHERE active = 1)`, returning
the number of deleted rows. -/
def cleanupOrphanedContent (db : Db) : Db × Nat :=
  let keep : ContentRow → Bool := fun c => decide (c.hash ∈ activeHashes db)
  ({ db with content := db.content.filter keep },
    (db.content.filter (fun c => !keep c)).length)

/-- C9: `cleanupOrphanedContent` deletes exactly the content rows whose hash
is not referenced by any `active = 1` document, returns the number of rows
deleted, and is idempotent: a second call with no intervening writes
deletes 0 rows. -/
theorem cleanupOrphanedContent_spec (db : Db) :
    (∀ c, c ∈ (cleanupOrphanedContent db).1.content ↔
      (c ∈ db.content ∧ c.hash ∈ activeHashes db)) ∧
    (cleanupOrphanedContent db).1.documents = db.documents ∧
    (cleanupOrphanedContent db).2
      = (db.content.filter (fun c => decide (c.hash ∉ activeHashes db))).length ∧
    (cleanupOrphanedContent (cleanupOrphanedContent db).1).2 = 0 := by
  refine ⟨?_, rfl, ?_, ?_⟩
  · intro c
    simp [cleanupOrphanedContent, List.mem_filter]
  · simp [cleanupOrphanedContent]
  · have hact2 : activeHashes
        ⟨db.content.filter (fun c => decide (c.hash ∈ activeHashes db)), db.documents⟩
        = activeHashes db := rfl
    simp only [cleanupOrphanedContent, List.filter_filter]
    simp only [hact2]
    simp

/-! ## Path contexts (part_014, `ContextRepository.getContextForPath`)

The predicate `? LIKE path_prefix || '/%'` carries SQLite LIKE semantics:
`%` matches any sequence and `_` any single character (also inside the
stored prefix, there being no ESCAPE clause), and ASCII letters compare
case-insensitively; `? = path_prefix` is exact (BINARY) equality.  The
returned value passes through `result?.context || null`, which maps an
empty-string context (falsy in JavaScript) to null. -/

/-- Row of the `path_contexts` table; `prefixStr` is the `path_prefix`
column.  Tables are modelled as lists in rowid (insertion) order. -/
structure PathContextRow where
  id : Nat
  collection_id : Nat
  prefixStr : List Char
  context : List Char
  deriving Repr, DecidableEq

/-- ASCII case folding applied by SQLite's default LIKE (its
`sqlite3UpperToLower` table folds only A-Z). -/
def likeFold (c : Char) : Char :=
  if 65 ≤ c.toNat ∧ c.toNat ≤ 90 then Char.ofNat (c.toNat + 32) else c

/-- One non-wildcard pattern character against one text character under
SQLite LIKE: ASCII-case-insensitive, exact elsewhere. -/
def likeCharMatch (p c : Char) : Bool :=
  decide (likeFold p = likeFold c)

/-- SQLite `LIKE` matching without ESCAPE: `%` matches any sequence of
characters, `_` matches exactly one, every other pattern character matches
ASCII-case-insensitively. -/
def likeMatch : List Char → List Char → Bool
  | [], t => t.isEmpty
  | p :: ps, t =>
    if p = '%' then t.tails.any (fun t2 => likeMatch ps t2)
    else if p = '_' then
      match t with
      | [] => false
      | _ :: ts => likeMatch ps ts
    else
      match t with
      | [] => false
      | c :: ts => likeCharMatch p c && likeMatch ps ts

/-- SQL predicate `? LIKE path_prefix || '/%' OR ? = path_prefix OR
path_prefix = ''` from `getContextForPath`. -/
def ctxMatches (path pre : List Char) : Bool :=
  likeMatch (pre ++ ['/', '%']) path || decide (path = pre) || decide (pre = [])

/-- The WHERE predicate as a proposition: the path matches the SQLite LIKE
pattern `path_prefix || '/%'`, or equals the stored prefix exactly, or the
stored prefix is the empty string. -/
def SqlMatch (path pre : List Char) : Prop :=
  likeMatch (pre ++ ['/', '%']) path = true ∨ path = pre ∨ pre = []

theorem ctxMatches_iff (path pre : List Char) :
    ctxMatches path pre = true ↔ SqlMatch path pre := by
  unfold ctxMatches SqlMatch
  simp [Bool.or_eq_true, decide_eq_true_eq, or_assoc]

/-- Fold step realising `ORDER BY LENGTH(path_prefix) DESC LIMIT 1` over a
rowid-ordered scan: keep the first row seen among those of maximal prefix
length (a replacement happens only on strictly greater length). -/
def betterRow (best : Option PathContextRow) (r : PathContextRow) : Option PathContextRow :=
  match best with
  | none => some r
  | some b => if b.prefixStr.length < r.prefixStr.length then some r else some b

/-- Embedding of `getContextForPath(collection_id, path)`; the winning
row's context passes through `result?.context || null`, so an empty-string
context comes back as `none`. -/
def getContextForPath (rows : List PathContextRow) (cid : Nat) (path : List Char) :
    Option (List Char) :=
  let matching := rows.filter
    (fun r => decide (r.collection_id = cid) && ctxMatches path r.prefixStr)
  match matching.foldl betterRow none with
  | some r => if r.context = [] then none else some r.context
  | none => none

/-- Literal matching predicate asserted by the original claim (the path
equals the stored path_prefix, or extends it across a `/`, or the stored
path_prefix is the empty string); kept to state the counterexample, since
SQLite LIKE matches strictly more than this. -/
def CtxMatch (path pre : List Char) : Prop :=
  path = pre ∨ (∃ suf, path = pre ++ '/' :: suf) ∨ pre = []

theorem isPrefixOf_eq_true_iff (l₁ l₂ : List Char) :
    l₁.isPrefixOf l₂ = true ↔ ∃ t, l₂ = l₁ ++ t := by
  induction l₁ generalizing l₂ with
  | nil =>
    simp [List.isPrefixOf]
  | cons a as ih =>
    cases l₂ with
    | nil => simp [List.isPrefixOf]
    | cons b bs =>
      simp only [List.isPrefixOf, Bool.and_eq_true, beq_iff_eq, ih, List.cons_append,
        List.cons.injEq]
      constructor
      · rintro ⟨rfl, t, rfl⟩
        exact ⟨t, rfl, rfl⟩
      · rintro ⟨t, rfl, rfl⟩
        exact ⟨rfl, t, rfl⟩

theorem betterRow_go (rest : List PathContextRow) :
    ∀ b : PathContextRow, (∀ x ∈ rest, b.id < x.id) →
      rest.Pairwise (fun a c => a.id < c.id) →
      ∃ r, rest.foldl betterRow (some b) = some r ∧
        (r = b ∨ r ∈ rest) ∧
        b.prefixStr.length ≤ r.prefixStr.length ∧
        (b.prefixStr.length = r.prefixStr.length → r = b) ∧
        (∀ x ∈ rest, x.prefixStr.length ≤ r.prefixStr.length ∧
          (x.prefixStr.length = r.prefixStr.length → r.id ≤ x.id)) := by
  induction rest with
  | nil =>
    intro b _ _
    exact ⟨b, rfl, Or.inl rfl, Nat.le_refl _, fun _ => rfl, by simp⟩
  | cons x rest2 ih =>
    intro b hb hp
    have hx : b.id < x.id := hb x (List.mem_cons_self x rest2)
    have hrest2 : ∀ y ∈ rest2, x.id < y.id := fun y hy => (List.pairwise_cons.mp hp).1 y hy
    have hp2 : rest2.Pairwise (fun a c => a.id < c.id) := (List.pairwise_cons.mp hp).2
    simp only [List.foldl_cons]
    by_cases hlen : b.prefixStr.length < x.prefixStr.length
    · have hstep : betterRow (some b) x = some x := by simp [betterRow, hlen]
      rw [hstep]
      obtain ⟨r, hr, hmem, hble, htie, hall⟩ := ih x hrest2 hp2
      refine ⟨r, hr, ?_, by omega, by omega, ?_⟩
      · rcases hmem with rfl | hmem
        · exact Or.inr (List.mem_cons_self _ _)
        · exact Or.inr (List.mem_cons_of_mem _ hmem)
      · intro y hy
        rcases List.mem_cons.mp hy with rfl | hy
        · refine ⟨hble, fun h => ?_⟩
          have := htie h
          subst this
          exact Nat.le_refl _
        · exact hall y hy
    · have hstep : betterRow (some b) x = some b := by simp [betterRow, hlen]
      rw [hstep]
      obtain ⟨r, hr, hmem, hble, htie, hall⟩ := ih b (fun y hy => hb y (List.mem_cons_of_mem _ hy)) hp2
      refine ⟨r, hr, ?_, hble, htie, ?_⟩
      · rcases hmem with rfl | hmem
        · exact Or.inl rfl
        · exact Or.inr (List.mem_cons_of_mem _ hmem)
      · intro y hy
        rcases List.mem_cons.mp hy with rfl | hy
        · refine ⟨by omega, fun h => ?_⟩
          have hbr : b.prefixStr.length = r.prefixStr.length := by omega
          have := htie hbr
          subst this
          exact Nat.le_of_lt hx
        · exact hall y hy

theorem betterRow_fold_spec (l : List PathContextRow)
    (hp : l.Pairwise (fun a c => a.id < c.id)) :
    (l.foldl betterRow none = none → l = []) ∧
    (∀ r, l.foldl betterRow none = some r → r ∈ l ∧
      (∀ x ∈ l, x.prefixStr.length ≤ r.prefixStr.length ∧
        (x.prefixStr.length = r.prefixStr.length → r.id ≤ x.id))) := by
  cases l with
  | nil => exact ⟨fun _ => rfl, by simp⟩
  | cons b rest =>
    have hb : ∀ x ∈ rest, b.id < x.id := fun x hx => (List.pairwise_cons.mp hp).1 x hx
    have hp2 : rest.Pairwise (fun a c => a.id < c.id) := (List.pairwise_cons.mp hp).2
    obtain ⟨r, hr, hmem, hble, htie, hall⟩ := betterRow_go rest b hb hp2
    simp only [List.foldl_cons, betterRow]
    rw [hr]
    refine ⟨fun h => absurd h (by simp), ?_⟩
    intro r2 hr2
    obtain rfl : r = r2 := Option.some_inj.mp hr2
    constructor
    · rcases hmem with rfl | hmem
      · exact List.mem_cons_self _ _
      · exact List.mem_cons_of_mem _ hmem
    · intro x hx
      rcases List.mem_cons.mp hx with rfl | hx
      · refine ⟨hble, fun h => ?_⟩
        have := htie h
        subst this
        exact Nat.le_refl _
      · exact hall x hx

/-- C7 (amended): over the rowid-ordered table (`hid`),
`getContextForPath(collection_id, path)` selects among the rows of that
collection whose stored `path_prefix` matches the SQL predicate -- `path`
matches the SQLite LIKE pattern `path_prefix || '/%'` (so matching is
ASCII-case-insensitive and `%` and `_` inside the stored prefix act as
wildcards), or `path` equals the prefix exactly, or the prefix is the
empty string -- the row with the longest prefix, equal lengths resolved to
the smaller rowid; it returns that row's context unless the context is the
empty string, which the `result?.context || null` coercion turns into
`none`, and it returns `none` when no row matches. -/
theorem getContextForPath_spec (rows : List PathContextRow) (cid : Nat) (path : List Char)
    (hid : rows.Pairwise (fun a b => a.id < b.id)) :
    ((∀ r ∈ rows, ¬(r.collection_id = cid ∧ SqlMatch path r.prefixStr)) →
      getContextForPath rows cid path = none) ∧
    (∀ ctx, getContextForPath rows cid path = some ctx →
      ctx ≠ [] ∧ ∃ r ∈ rows, r.collection_id = cid ∧ SqlMatch path r.prefixStr ∧
        r.context = ctx ∧
        ∀ r2 ∈ rows, r2.collection_id = cid → SqlMatch path r2.prefixStr →
          (r2.prefixStr.length ≤ r.prefixStr.length ∧
            (r2.prefixStr.length = r.prefixStr.length → r.id ≤ r2.id))) ∧
    (getContextForPath rows cid path = none →
      (∀ r ∈ rows, ¬(r.collection_id = cid ∧ SqlMatch path r.prefixStr)) ∨
      ∃ r ∈ rows, r.collection_id = cid ∧ SqlMatch path r.prefixStr ∧ r.context = [] ∧
        ∀ r2 ∈ rows, r2.collection_id = cid → SqlMatch path r2.prefixStr →
          (r2.prefixStr.length ≤ r.prefixStr.length ∧
            (r2.prefixStr.length = r.prefixStr.length → r.id ≤ r2.id))) := by
  have hmem : ∀ r : PathContextRow,
      (decide (r.collection_id = cid) && ctxMatches path r.prefixStr) = true ↔
        (r.collection_id = cid ∧ SqlMatch path r.prefixStr) := by
    intro r
    simp [ctxMatches_iff]
  set matching := rows.filter
    (fun r => decide (r.collection_id = cid) && ctxMatches path r.prefixStr) with hmatch
  have hpm : matching.Pairwise (fun a b => a.id < b.id) :=
    List.Pairwise.sublist (List.filter_sublist rows) hid
  obtain ⟨hnone, hsome⟩ := betterRow_fold_spec matching hpm
  have hres : getContextForPath rows cid path =
      match matching.foldl betterRow none with
      | some r => if r.context = [] then none else some r.context
      | none => none := rfl
  have hres_none : matching.foldl betterRow none = none →
      getContextForPath rows cid path = none := by
    intro h
    rw [hres, h]
  have hres_some : ∀ r, matching.foldl betterRow none = some r →
      getContextForPath rows cid path = (if r.context = [] then none else some r.context) := by
    intro r h
    rw [hres, h]
  have hwin : ∀ r, matching.foldl betterRow none = some r →
      r ∈ rows ∧ r.collection_id = cid ∧ SqlMatch path r.prefixStr ∧
      ∀ r2 ∈ rows, r2.collection_id = cid → SqlMatch path r2.prefixStr →
        (r2.prefixStr.length ≤ r.prefixStr.length ∧
          (r2.prefixStr.length = r.prefixStr.length → r.id ≤ r2.id)) := by
    intro r hr
    obtain ⟨hrm, hmax⟩ := hsome r hr
    obtain ⟨hrr, hcond⟩ := List.mem_filter.mp hrm
    obtain ⟨hcid, hsql⟩ := (hmem r).mp hcond
    exact ⟨hrr, hcid, hsql, fun r2 hr2 hcid2 hm2 =>
      hmax r2 (List.mem_filter.mpr ⟨hr2, (hmem r2).mpr ⟨hcid2, hm2⟩⟩)⟩
  refine ⟨?_, ?_, ?_⟩
  · intro h
    cases hcase : matching.foldl betterRow none with
    | none => exact hres_none hcase
    | some r =>
      obtain ⟨hrr, hcid, hsql, _⟩ := hwin r hcase
      exact absurd ⟨hcid, hsql⟩ (h r hrr)
  · intro ctx hctx
    cases hcase : matching.foldl betterRow none with
    | none =>
      rw [hres_none hcase] at hctx
      exact absurd hctx (by simp)
    | some r =>
      rw [hres_some r hcase] at hctx
      by_cases hemp : r.context = []
      · rw [if_pos hemp] at hctx
        exact absurd hctx (by simp)
      · rw [if_neg hemp] at hctx
        obtain rfl : r.context = ctx := Option.some_inj.mp hctx
        obtain ⟨hrr, hcid, hsql, hmax⟩ := hwin r hcase
        exact ⟨hemp, r, hrr, hcid, hsql, rfl, hmax⟩
  · intro hn
    cases hcase : matching.foldl betterRow none with
    | none =>
      left
      intro r hr hcond
      have hrm : r ∈ matching := List.mem_filter.mpr ⟨hr, (hmem r).mpr hcond⟩
      rw [hnone hcase] at hrm
      exact absurd hrm (List.not_mem_nil r)
    | some r =>
      right
      obtain ⟨hrr, hcid, hsql, hmax⟩ := hwin r hcase
      refine ⟨r, hrr, hcid, hsql, ?_, hmax⟩
      by_contra hemp
      rw [hres_some r hcase, if_neg hemp] at hn
      exact absurd hn (by simp)

/-- Concrete context table for the C7 witness: contexts for the prefixes
`""` and `"docs"` on collection 1. -/
def ctxRowsEx : List PathContextRow :=
  [⟨1, 1, [], ['r']⟩, ⟨2, 1, ['d', 'o', 'c', 's'], ['s']⟩]

/-- Concrete query path for the C7 witness. -/
def ctxPathEx : List Char := ['d', 'o', 'c', 's', '/', 'i']

/-- Witness for C7 at a concrete input. -/
theorem getContextForPath_spec_witness :
    ((∀ r ∈ ctxRowsEx, ¬(r.collection_id = 1 ∧ SqlMatch ctxPathEx r.prefixStr)) →
      getContextForPath ctxRowsEx 1 ctxPathEx = none) ∧
    (∀ ctx, getContextForPath ctxRowsEx 1 ctxPathEx = some ctx →
      ctx ≠ [] ∧ ∃ r ∈ ctxRowsEx, r.collection_id = 1 ∧ SqlMatch ctxPathEx r.prefixStr ∧
        r.context = ctx ∧
        ∀ r2 ∈ ctxRowsEx, r2.collection_id = 1 → SqlMatch ctxPathEx r2.prefixStr →
          (r2.prefixStr.length ≤ r.prefixStr.length ∧
            (r2.prefixStr.length = r.prefixStr.length → r.id ≤ r2.id))) ∧
    (getContextForPath ctxRowsEx 1 ctxPathEx = none →
      (∀ r ∈ ctxRowsEx, ¬(r.collection_id = 1 ∧ SqlMatch ctxPathEx r.prefixStr)) ∨
      ∃ r ∈ ctxRowsEx, r.collection_id = 1 ∧ SqlMatch ctxPathEx r.prefixStr ∧
        r.context = [] ∧
        ∀ r2 ∈ ctxRowsEx, r2.collection_id = 1 → SqlMatch ctxPathEx r2.prefixStr →
          (r2.prefixStr.length ≤ r.prefixStr.length ∧
            (r2.prefixStr.length = r.prefixStr.length → r.id ≤ r2.id))) :=
  getContextForPath_spec ctxRowsEx 1 ctxPathEx (by simp [ctxRowsEx])

/-- Counterexample to C7 as stated: SQLite LIKE is ASCII-case-insensitive,
so the stored prefix `"Docs"` matches the path `"docs/i"` in the code and a
context is returned, although the path neither equals the prefix nor
extends it across a `/`; and a matching row whose context is the empty
string yields `none` (the `result?.context || null` coercion), not its
context. -/
theorem getContextForPath_counterexample :
    (getContextForPath [⟨1, 1, ['D', 'o', 'c', 's'], ['c']⟩] 1
        ['d', 'o', 'c', 's', '/', 'i'] = some ['c'] ∧
      ¬ CtxMatch ['d', 'o', 'c', 's', '/', 'i'] ['D', 'o', 'c', 's']) ∧
    (getContextForPath [⟨1, 1, [], []⟩] 1 ['a'] = none ∧
      CtxMatch ['a'] [] ∧
      (⟨1, 1, [], []⟩ : PathContextRow).collection_id = 1) := by
  refine ⟨⟨?_, ?_⟩, ?_, Or.inr (Or.inr rfl), rfl⟩
  · rfl
  · rintro (h | ⟨suf, h⟩ | h)
    · exact absurd h (by decide)
    · simp at h
    · exact absurd h (by decide)
  · rfl

/-! ## Collection naming (part_000, `getOrCreateCollection`)

On a name collision the code fetches the existing names `LIKE '{name}%'`
and appends `-N`, incrementing `N` from 2 until the candidate is absent
from that list. -/

/-- Decimal digit character (used with arguments below 10 only). -/
def digitChar (n : Nat) : Char := Char.ofNat (48 + n)

/-- Decimal rendering of a natural number, as JavaScript template
interpolation of a number produces it. -/
def natDigits (n : Nat) : List Char :=
  if n < 10 then [digitChar n]
  else natDigits (n / 10) ++ [digitChar (n % 10)]
decreasing_by
  exact Nat.div_lt_self (by omega) (by omega)

/-- Value of a decimal digit string (left inverse of `natDigits`). -/
def digitsVal (l : List Char) : Nat :=
  l.foldl (fun a c => 10 * a + (c.toNat - 48)) 0

/-- Candidate name `"{name}-{n}"`. -/
def suffixedName (name : List Char) (n : Nat) : List Char :=
  name ++ '-' :: natDigits n

theorem digitChar_toNat (d : Nat) (h : d < 10) : (digitChar d).toNat = 48 + d := by
  interval_cases d <;> rfl

theorem digitsVal_append_digit (xs : List Char) (c : Char) :
    digitsVal (xs ++ [c]) = 10 * digitsVal xs + (c.toNat - 48) := by
  unfold digitsVal
  rw [List.foldl_append]
  rfl

theorem digitsVal_natDigits (n : Nat) : digitsVal (natDigits n) = n := by
  induction n using natDigits.induct with
  | case1 n h =>
    rw [natDigits, if_pos h]
    show 10 * 0 + ((digitChar n).toNat - 48) = n
    rw [digitChar_toNat n h]
    omega
  | case2 n h ih =>
    rw [natDigits, if_neg h]
    rw [digitsVal_append_digit, ih, digitChar_toNat (n % 10) (Nat.mod_lt n (by omega))]
    omega

theorem suffixedName_inj (name : List Char) {m n : Nat}
    (h : suffixedName name m = suffixedName name n) : m = n := by
  unfold suffixedName at h
  have h2 := List.append_cancel_left h
  have h3 : natDigits m = natDigits n := by
    injection h2
  have := congrArg digitsVal h3
  rwa [digitsVal_natDigits, digitsVal_natDigits] at this

theorem suffixedName_exists (name : List Char) (l : List (List Char)) :
    ∃ n, 2 ≤ n ∧ suffixedName name n ∉ l := by
  by_contra hcon
  push_neg at hcon
  set f : Nat → List Char := fun i => suffixedName name (i + 2) with hf
  have hinj : Function.Injective f := by
    intro a b hab
    have := suffixedName_inj name hab
    omega
  have hnd : ((List.range (l.length + 1)).map f).Nodup :=
    (List.nodup_range _).map hinj
  have hsub : ((List.range (l.length + 1)).map f) ⊆ l := by
    intro x hx
    rw [List.mem_map] at hx
    obtain ⟨i, _, rfl⟩ := hx
    exact hcon (i + 2) (by omega)
  have hlen := (hnd.subperm hsub).length_le
  simp at hlen

/-- Name chosen by `getOrCreateCollection` given the list of existing
collection names: insert `name` directly if it is free (the UNIQUE
constraint raises exactly when it is taken); otherwise scan the names
starting with `name` (the `LIKE '{name}%'` query) and take the first free
suffix `-N` counting up from 2. -/
def mkCollectionName (name : List Char) (existing : List (List Char)) : List Char :=
  if name ∈ existing then
    let candidates := existing.filter (fun s => name.isPrefixOf s)
    suffixedName name (Nat.find (suffixedName_exists name candidates))
  else name

theorem isPrefixOf_append_self (l t : List Char) : l.isPrefixOf (l ++ t) = true := by
  rw [isPrefixOf_eq_true_iff]
  exact ⟨t, rfl⟩

/-- C8: the name chosen during collection creation never collides with an
existing collection name, and when the auto-generated name collides, the
appended suffix `-N` uses the smallest `N` starting at 2 that produces a
name unique among the existing collections. -/
theorem mkCollectionName_spec (name : List Char) (existing : List (List Char)) :
    mkCollectionName name existing ∉ existing ∧
    (name ∈ existing → ∃ N, 2 ≤ N ∧ mkCollectionName name existing = suffixedName name N ∧
      suffixedName name N ∉ existing ∧
      ∀ m, 2 ≤ m → m < N → suffixedName name m ∈ existing) := by
  by_cases hmem : name ∈ existing
  · set candidates := existing.filter (fun s => name.isPrefixOf s) with hc
    set N := Nat.find (suffixedName_exists name candidates) with hN
    obtain ⟨hN2, hNfree⟩ := Nat.find_spec (suffixedName_exists name candidates)
    have heq : mkCollectionName name existing = suffixedName name N := by
      rw [mkCollectionName, if_pos hmem]
    have hfree : suffixedName name N ∉ existing := by
      intro hin
      apply hNfree
      rw [hc]
      refine List.mem_filter.mpr ⟨hin, ?_⟩
      unfold suffixedName
      exact isPrefixOf_append_self name ('-' :: natDigits N)
    refine ⟨heq ▸ hfree, fun _ => ⟨N, hN2, heq, hfree, ?_⟩⟩
    intro m hm2 hmN
    have hnot := Nat.find_min (suffixedName_exists name candidates) hmN
    push_neg at hnot
    exact List.mem_of_mem_filter (hnot hm2)
  · rw [mkCollectionName, if_neg hmem]
    exact ⟨hmem, fun h => absurd h hmem⟩

/-- Witness for C8 at a concrete input: existing names `a`, `a-2`; the chosen
name must be `a-3`. -/
theorem mkCollectionName_spec_witness :
    (mkCollectionName ['a'] [['a'], ['a', '-', '2']] ∉ [['a'], ['a', '-', '2']] ∧
      (['a'] ∈ [['a'], ['a', '-', '2']] →
        ∃ N, 2 ≤ N ∧ mkCollectionName ['a'] [['a'], ['a', '-', '2']] = suffixedName ['a'] N ∧
          suffixedName ['a'] N ∉ [['a'], ['a', '-', '2']] ∧
          ∀ m, 2 ≤ m → m < N → suffixedName ['a'] m ∈ [['a'], ['a', '-', '2']])) :=
  mkCollectionName_spec ['a'] [['a'], ['a', '-', '2']]

/-! ## FTS5 query building (src/database/search/search.ts)

The Unicode regex classes `\p{L}`, `\p{N}`, the whitespace class `\s` and
`String.prototype.toLowerCase` coincide with their ASCII counterparts on
ASCII input; outside ASCII they are taken as parameters (`uL`, `uN`,
`isWs`, `lower`). -/

/-- Double quote character. -/
def quoteChar : Char := Char.ofNat 34

/-- Apostrophe character. -/
def aposChar : Char := Char.ofNat 39

/-- Opening parenthesis. -/
def lparChar : Char := Char.ofNat 40

/-- Closing parenthesis. -/
def rparChar : Char := Char.ofNat 41

/-- Asterisk character. -/
def starChar : Char := Char.ofNat 42

/-- Character class kept by `sanitizeFTS5Term`, i.e. the complement of the
stripped regex class `[^\p{L}\p{N}']`: Unicode letters (ASCII `isAlpha`
plus the non-ASCII class `uL`), Unicode digits (ASCII `isDigit` plus `uN`),
and the apostrophe. -/
def keepChar (uL uN : Char → Bool) (c : Char) : Bool :=
  if c.toNat < 128 then (c.isAlpha || c.isDigit || c == aposChar) else (uL c || uN c)

/-- Embedding of `sanitizeFTS5Term`:
`term.replace(/[^\p{L}\p{N}']/gu, "").toLowerCase()`. -/
def sanitizeFTS5Term (uL uN : Char → Bool) (lower : List Char → List Char)
    (term : List Char) : List Char :=
  lower (term.filter (keepChar uL uN))

/-- Accumulator-based splitter realising `query.split(/\s+/)`: separators are
maximal whitespace runs; a leading or trailing run contributes an empty
piece, runs never produce interior empty pieces. -/
def splitWsGo (isWs : Char → Bool) : List Char → List Char → List (List Char)
  | [], acc => [acc.reverse]
  | c :: rest, acc =>
    if isWs c then acc.reverse :: splitWsGo isWs (rest.dropWhile isWs) []
    else splitWsGo isWs rest (c :: acc)
termination_by l _ => l.length
decreasing_by
  · simp
    exact Nat.lt_succ_of_le (List.Sublist.length_le (List.dropWhile_sublist isWs))
  · simp

theorem splitWsGo_nil (isWs : Char → Bool) (acc : List Char) :
    splitWsGo isWs [] acc = [acc.reverse] := by
  rw [splitWsGo.eq_def]

theorem splitWsGo_cons (isWs : Char → Bool) (c : Char) (rest acc : List Char) :
    splitWsGo isWs (c :: rest) acc =
      if isWs c then acc.reverse :: splitWsGo isWs (rest.dropWhile isWs) []
      else splitWsGo isWs rest (c :: acc) := by
  rw [splitWsGo.eq_def]

/-- JavaScript `query.split(/\s+/)`. -/
def splitWs (isWs : Char → Bool) (s : List Char) : List (List Char) :=
  splitWsGo isWs s []

/-- Quoted prefix term `"{t}"*`. -/
def quoteStar (t : List Char) : List Char :=
  quoteChar :: (t ++ [quoteChar, starChar])

/-- Separator `" AND "`. -/
def andSep : List Char := ' ' :: 'A' :: 'N' :: 'D' :: [' ']

/-- Sanitized non-empty search terms of `buildFTS5Query` (lines 39–42). -/
def ftsTerms (uL uN : Char → Bool) (lower : List Char → List Char) (isWs : Char → Bool)
    (query : List Char) : List (List Char) :=
  ((splitWs isWs query).map (sanitizeFTS5Term uL uN lower)).filter (fun t => !t.isEmpty)

/-- Embedding of `buildFTS5Query` (lines 38–48). -/
def buildFTS5Query (uL uN : Char → Bool) (lower : List Char → List Char) (isWs : Char → Bool)
    (query : List Char) : Option (List Char) :=
  match ftsTerms uL uN lower isWs query with
  | [] => none
  | [t] => some (quoteStar t)
  | t1 :: t2 :: rest => some (List.intercalate andSep ((t1 :: t2 :: rest).map quoteStar))

/-- Embedding of `searchFTS` (lines 54–86) as far as the claims are
concerned: a `none` query short-circuits to the empty result, otherwise the
database executes the MATCH string (abstracted as `exec`). -/
def searchFTS (uL uN : Char → Bool) (lower : List Char → List Char) (isWs : Char → Bool)
    (exec : List Char → List Nat) (query : List Char) : List Nat :=
  match buildFTS5Query uL uN lower isWs query with
  | none => []
  | some q => exec q

/-- C5: the query is tokenized on whitespace and sanitized to letters,
digits and apostrophes; when no non-empty token remains (for example on
input `"  "`) the search returns empty without querying; one surviving
token `T` yields the MATCH string `"T"*`, several yield the quoted prefix
terms joined with `" AND "`. -/
theorem buildFTS5Query_spec (uL uN : Char → Bool) (lower : List Char → List Char)
    (isWs : Char → Bool) (hsp : isWs ' ' = true) (hlow : lower [] = [])
    (query : List Char) :
    (ftsTerms uL uN lower isWs query = [] →
      buildFTS5Query uL uN lower isWs query = none ∧
      ∀ exec : List Char → List Nat, searchFTS uL uN lower isWs exec query = []) ∧
    (∀ t, ftsTerms uL uN lower isWs query = [t] →
      buildFTS5Query uL uN lower isWs query = some (quoteStar t)) ∧
    (∀ t ts, ftsTerms uL uN lower isWs query = t :: ts →
      buildFTS5Query uL uN lower isWs query
        = some (List.intercalate andSep ((ftsTerms uL uN lower isWs query).map quoteStar))) ∧
    (buildFTS5Query uL uN lower isWs [' ', ' '] = none ∧
      ∀ exec : List Char → List Nat, searchFTS uL uN lower isWs exec [' ', ' '] = []) := by
  have hblank : ftsTerms uL uN lower isWs [' ', ' '] = [] := by
    have hsplit : splitWs isWs [' ', ' '] = [[], []] := by
      unfold splitWs
      rw [splitWsGo_cons, if_pos hsp]
      simp only [List.dropWhile_cons, hsp, if_true, List.dropWhile_nil, List.reverse_nil]
      rw [splitWsGo_nil]
      simp
    unfold ftsTerms
    rw [hsplit]
    simp [sanitizeFTS5Term, hlow]
  refine ⟨?_, ?_, ?_, ?_⟩
  · intro h
    have hq : buildFTS5Query uL uN lower isWs query = none := by
      unfold buildFTS5Query
      rw [h]
    exact ⟨hq, fun exec => by unfold searchFTS; rw [hq]⟩
  · intro t h
    unfold buildFTS5Query
    rw [h]
  · intro t ts h
    cases ts with
    | nil =>
      unfold buildFTS5Query
      rw [h]
      simp [List.intercalate]
    | cons t2 ts2 =>
      unfold buildFTS5Query
      rw [h]
  · have hq : buildFTS5Query uL uN lower isWs [' ', ' '] = none := by
      unfold buildFTS5Query
      rw [hblank]
    exact ⟨hq, fun exec => by unfold searchFTS; rw [hq]⟩

/-- Witness for C5 at concrete parameters (ASCII-only classes, identity
non-ASCII lowercasing) and a concrete query. -/
theorem buildFTS5Query_spec_witness :
    ((fun (c : Char) => c == ' ') ' ' = true) ∧
    ((fun (l : List Char) => l) [] = []) ∧
    (buildFTS5Query (fun _ => false) (fun _ => false) (fun l => l) (fun c => c == ' ')
        [' ', ' '] = none ∧
      ∀ exec : List Char → List Nat,
        searchFTS (fun _ => false) (fun _ => false) (fun l => l) (fun c => c == ' ')
          exec [' ', ' '] = []) :=
  ⟨by decide, rfl,
    (buildFTS5Query_spec (fun _ => false) (fun _ => false) (fun l => l) (fun c => c == ' ')
      (by decide) rfl [' ', ' ']).2.2.2⟩

theorem keepChar_not_quote (uL uN : Char → Bool) : keepChar uL uN quoteChar = false := rfl

theorem keepChar_not_lpar (uL uN : Char → Bool) : keepChar uL uN lparChar = false := rfl

theorem keepChar_not_rpar (uL uN : Char → Bool) : keepChar uL uN rparChar = false := rfl

theorem keepChar_not_star (uL uN : Char → Bool) : keepChar uL uN starChar = false := rfl

theorem keepChar_not_space (uL uN : Char → Bool) : keepChar uL uN ' ' = false := rfl

/-- C10 (amended): the MATCH string built from arbitrary user input is
either absent (no query runs) or a conjunction of double-quoted prefix
terms, and no double quote, parenthesis, star or space occurs inside a
term -- so no input character reaches the MATCH expression outside the
quoting and FTS5 query syntax cannot be injected.  Lowercasing may
introduce characters outside the letter/digit/apostrophe class (e.g. the
combining dot above that `"\u0130"` lowercases to), so the terms need not
consist only of that class; the hypothesis `hlower` states the true
Unicode fact that lowercasing a string of letters, digits and apostrophes
never produces a double quote, parenthesis, star or space. -/
theorem buildFTS5Query_safe (uL uN : Char → Bool) (lower : List Char → List Char)
    (isWs : Char → Bool)
    (hlower : ∀ l : List Char, (∀ c ∈ l, keepChar uL uN c = true) →
      ∀ c ∈ lower l,
        c ≠ quoteChar ∧ c ≠ lparChar ∧ c ≠ rparChar ∧ c ≠ starChar ∧ c ≠ ' ')
    (query : List Char) :
    buildFTS5Query uL uN lower isWs query = none ∨
    ∃ ts, ts ≠ [] ∧ ts = ftsTerms uL uN lower isWs query ∧
      buildFTS5Query uL uN lower isWs query
        = some (List.intercalate andSep (ts.map quoteStar)) ∧
      ∀ t ∈ ts, t ≠ [] ∧ ∀ c ∈ t,
        c ≠ quoteChar ∧ c ≠ lparChar ∧ c ≠ rparChar ∧ c ≠ starChar ∧ c ≠ ' ' := by
  have hterm : ∀ t ∈ ftsTerms uL uN lower isWs query, t ≠ [] ∧
      ∀ c ∈ t, c ≠ quoteChar ∧ c ≠ lparChar ∧ c ≠ rparChar ∧ c ≠ starChar ∧ c ≠ ' ' := by
    intro t ht
    unfold ftsTerms at ht
    obtain ⟨hmem, hne⟩ := List.mem_filter.mp ht
    obtain ⟨tok, _, rfl⟩ := List.mem_map.mp hmem
    refine ⟨by simpa using hne, ?_⟩
    intro c hc
    refine hlower _ ?_ c hc
    intro d hd
    exact (List.mem_filter.mp hd).2
  cases hcase : ftsTerms uL uN lower isWs query with
  | nil =>
    left
    unfold buildFTS5Query
    rw [hcase]
  | cons t ts =>
    right
    refine ⟨t :: ts, by simp, rfl, ?_, hcase ▸ hterm⟩
    cases ts with
    | nil =>
      unfold buildFTS5Query
      rw [hcase]
      simp [List.intercalate]
    | cons t2 ts2 =>
      unfold buildFTS5Query
      rw [hcase]

/-- Witness for C10 at concrete parameters and the query `hi q`. -/
theorem buildFTS5Query_safe_witness :
    buildFTS5Query (fun _ => false) (fun _ => false) (fun l => l) (fun c => c == ' ')
        ['h', 'i', ' ', 'q'] = none ∨
    ∃ ts, ts ≠ [] ∧
      ts = ftsTerms (fun _ => false) (fun _ => false) (fun l => l) (fun c => c == ' ')
        ['h', 'i', ' ', 'q'] ∧
      buildFTS5Query (fun _ => false) (fun _ => false) (fun l => l) (fun c => c == ' ')
          ['h', 'i', ' ', 'q']
        = some (List.intercalate andSep (ts.map quoteStar)) ∧
      ∀ t ∈ ts, t ≠ [] ∧ ∀ c ∈ t,
        c ≠ quoteChar ∧ c ≠ lparChar ∧ c ≠ rparChar ∧ c ≠ starChar ∧ c ≠ ' ' :=
  buildFTS5Query_safe (fun _ => false) (fun _ => false) (fun l => l) (fun c => c == ' ')
    (by
      intro l h c hc
      have hk := h c hc
      refine ⟨?_, ?_, ?_, ?_, ?_⟩
      · intro he; rw [he, keepChar_not_quote] at hk; exact Bool.false_ne_true hk
      · intro he; rw [he, keepChar_not_lpar] at hk; exact Bool.false_ne_true hk
      · intro he; rw [he, keepChar_not_rpar] at hk; exact Bool.false_ne_true hk
      · intro he; rw [he, keepChar_not_star] at hk; exact Bool.false_ne_true hk
      · intro he; rw [he, keepChar_not_space] at hk; exact Bool.false_ne_true hk)
    ['h', 'i', ' ', 'q']

/-- Restriction of the Unicode letter class to the code points of the
counterexample: U+0130 (LATIN CAPITAL LETTER I WITH DOT ABOVE) is in
`\p{L}`; U+0307 (COMBINING DOT ABOVE, general category Mn) is not in
`\p{L}` or `\p{N}`. -/
def uLDotted : Char → Bool := fun c => decide (c = Char.ofNat 0x130)

/-- JavaScript `toLowerCase` restricted to the characters occurring in the
counterexample: per the Unicode SpecialCasing data it maps U+0130 to
U+0069 followed by U+0307 and fixes the other characters appearing here. -/
def lowerDotted : List Char → List Char := fun l =>
  l.flatMap (fun c =>
    if c = Char.ofNat 0x130 then [Char.ofNat 0x69, Char.ofNat 0x307] else [c])

/-- Counterexample to C10 as stated: on the single-character query
`"\u0130"` the built MATCH string is the quoted prefix term over
`"i\u0307"`, and U+0307 is not a letter, digit or apostrophe, so the term
does not consist only of characters of the sanitized class. -/
theorem buildFTS5Query_class_counterexample :
    buildFTS5Query uLDotted (fun _ => false) lowerDotted (fun c => c == ' ')
        [Char.ofNat 0x130]
      = some (quoteStar [Char.ofNat 0x69, Char.ofNat 0x307]) ∧
    Char.ofNat 0x307 ∈ [Char.ofNat 0x69, Char.ofNat 0x307] ∧
    keepChar uLDotted (fun _ => false) (Char.ofNat 0x307) = false := by
  refine ⟨?_, by decide, by decide⟩
  have hsplit : splitWs (fun c => c == ' ') [Char.ofNat 0x130] = [[Char.ofNat 0x130]] := by
    unfold splitWs
    rw [splitWsGo_cons, if_neg (by decide), splitWsGo_nil]
    decide
  unfold buildFTS5Query ftsTerms
  rw [hsplit]
  decide

/-! ## Vector search (src/database/vectors/vectors.ts, `SearchService.searchVector`)

The raw KNN rows returned by `VectorRepository.searchVectors` and the pure
lookup `DocumentRepository.getDocumentInfoByHash` are inputs of the model;
distances are exact rationals.  The JavaScript `Map` keyed by the
addressable document is an association list in insertion order. -/

/-- Raw KNN result row (`hash`, `distance`, chunk `pos`). -/
structure VectorSearchRow where
  hash : String
  distance : ℚ
  pos : Nat
  deriving Repr, DecidableEq

/-- Row returned by `getDocumentInfoByHash`. -/
structure DocInfo where
  collection_name : String
  path : String
  title : String
  doc : String
  deriving Repr, DecidableEq

/-- Search hit as produced by `searchVector`. -/
structure SearchResult where
  file : String
  displayPath : String
  title : String
  body : String
  score : ℚ
  source : String
  chunkPos : Nat
  deriving Repr, DecidableEq

/-- Addressable document `qmd://{collection}/{path}`. -/
def mkFile (d : DocInfo) : String :=
  "qmd://" ++ d.collection_name ++ "/" ++ d.path

/-- Entry of the `seen` map: key (filepath) with `{ result, bestDist }`. -/
abbrev SeenEntry := String × VectorSearchRow × ℚ

/-- JavaScript `seen.get(filepath)`. -/
def lookupSeen (m : List SeenEntry) (fp : String) : Option (VectorSearchRow × ℚ) :=
  (m.find? (fun p => decide (p.1 = fp))).map (fun p => p.2)

/-- JavaScript `seen.set(filepath, v)`: replace in place when the key is
present, append otherwise. -/
def setSeen : List SeenEntry → String → VectorSearchRow × ℚ → List SeenEntry
  | [], fp, v => [(fp, v)]
  | (k, w) :: rest, fp, v =>
    if k = fp then (k, v) :: rest else (k, w) :: setSeen rest fp v

/-- Lines 398–409 of vectors.ts, one loop iteration: skip rows without
document info, keep the strictly smaller distance per filepath. -/
def dedupStep (docInfo : String → Option DocInfo) (m : List SeenEntry)
    (row : VectorSearchRow) : List SeenEntry :=
  match docInfo row.hash with
  | none => m
  | some doc =>
    let fp := mkFile doc
    match lookupSeen m fp with
    | none => setSeen m fp (row, row.distance)
    | some (_, bestDist) =>
      if row.distance < bestDist then setSeen m fp (row, row.distance) else m

/-- Deduplication loop over the raw KNN rows. -/
def dedupByDoc (docInfo : String → Option DocInfo) (rows : List VectorSearchRow) :
    List SeenEntry :=
  rows.foldl (dedupStep docInfo) []

/-- Lines 415–427 of vectors.ts: convert a winning `seen` entry into a
search hit, re-fetching the document info by hash (the `!` assertion in the
source corresponds to the unreachable `none` branch). -/
def vecHit (docInfo : String → Option DocInfo) (e : SeenEntry) : SearchResult :=
  match docInfo e.2.1.hash with
  | some doc =>
    ⟨mkFile doc, mkFile doc, doc.title, doc.doc, 1 / (1 + e.2.1.distance), "vec", e.2.1.pos⟩
  | none => ⟨"", "", "", "", 0, "vec", 0⟩

/-- Embedding of `SearchService.searchVector`: empty when the vec table is
missing or the query embedding failed; otherwise deduplicate by document,
sort ascending by best distance, truncate to `limit` and convert distances
to `score = 1 / (1 + d)` with `source = "vec"` and `chunkPos = pos`. -/
def searchVector (vecExists : Bool) (embedding : Option (List ℚ))
    (docInfo : String → Option DocInfo) (rows : List VectorSearchRow) (limit : Nat) :
    List SearchResult :=
  if !vecExists then []
  else
    match embedding with
    | none => []
    | some _ =>
      let seen := dedupByDoc docInfo rows
      ((seen.mergeSort (fun a b => decide (a.2.2 ≤ b.2.2))).take limit).map (vecHit docInfo)

/-- Well-formedness of a `seen` entry with respect to the processed rows:
its best distance is its row's distance, its row occurs among the processed
rows and resolves to document info whose filepath is the key, and its best
distance is minimal among all processed rows resolving to the same
filepath. -/
def RowOk (docInfo : String → Option DocInfo) (rows : List VectorSearchRow)
    (e : SeenEntry) : Prop :=
  e.2.2 = e.2.1.distance ∧
  e.2.1 ∈ rows ∧
  (∃ doc, docInfo e.2.1.hash = some doc ∧ e.1 = mkFile doc) ∧
  ∀ row2 ∈ rows, ∀ doc2, docInfo row2.hash = some doc2 → mkFile doc2 = e.1 →
    e.2.2 ≤ row2.distance

/-- Invariant of the deduplication loop after processing `prev`. -/
def DedupInv (docInfo : String → Option DocInfo) (m : List SeenEntry)
    (prev : List VectorSearchRow) : Prop :=
  (∀ e ∈ m, RowOk docInfo prev e) ∧
  (∀ row ∈ prev, ∀ doc, docInfo row.hash = some doc → ∃ e ∈ m, e.1 = mkFile doc) ∧
  (m.map Prod.fst).Nodup

theorem lookupSeen_eq_none (m : List SeenEntry) (fp : String) :
    lookupSeen m fp = none ↔ ∀ e ∈ m, e.1 ≠ fp := by
  unfold lookupSeen
  rw [Option.map_eq_none', List.find?_eq_none]
  simp

theorem lookupSeen_mem (m : List SeenEntry) (fp : String) (v : VectorSearchRow × ℚ)
    (h : lookupSeen m fp = some v) : (fp, v) ∈ m := by
  unfold lookupSeen at h
  rw [Option.map_eq_some'] at h
  obtain ⟨p, hp, rfl⟩ := h
  have h1 := List.mem_of_find?_eq_some hp
  have h2 := List.find?_some hp
  rw [decide_eq_true_eq] at h2
  subst h2
  simpa using h1

theorem lookupSeen_of_mem (m : List SeenEntry) (e : SeenEntry)
    (hnd : (m.map Prod.fst).Nodup) (he : e ∈ m) : lookupSeen m e.1 = some e.2 := by
  induction m with
  | nil => exact absurd he (List.not_mem_nil e)
  | cons p rest ih =>
    rcases List.mem_cons.mp he with rfl | he2
    · unfold lookupSeen
      rw [List.find?_cons_of_pos _ (by simp)]
      rfl
    · have hne : p.1 ≠ e.1 := by
        intro hcontra
        have : e.1 ∈ rest.map Prod.fst := List.mem_map.mpr ⟨e, he2, rfl⟩
        rw [List.map_cons] at hnd
        exact (List.nodup_cons.mp hnd).1 (hcontra ▸ this)
      unfold lookupSeen
      rw [List.find?_cons_of_neg _ (by simpa using hne)]
      exact ih (List.nodup_cons.mp (List.map_cons _ p rest ▸ hnd)).2 he2

theorem setSeen_mem (m : List SeenEntry) (fp : String) (v : VectorSearchRow × ℚ)
    (hnd : (m.map Prod.fst).Nodup) (e : SeenEntry) :
    e ∈ setSeen m fp v ↔ (e = (fp, v) ∨ (e ∈ m ∧ e.1 ≠ fp)) := by
  induction m with
  | nil => simp [setSeen]
  | cons p rest ih =>
    obtain ⟨k, w⟩ := p
    rw [List.map_cons, List.nodup_cons] at hnd
    by_cases hk : k = fp
    · subst hk
      rw [setSeen, if_pos rfl]
      constructor
      · intro h
        rcases List.mem_cons.mp h with rfl | h2
        · exact Or.inl rfl
        · refine Or.inr ⟨List.mem_cons_of_mem _ h2, ?_⟩
          intro hcontra
          exact hnd.1 (hcontra ▸ List.mem_map.mpr ⟨e, h2, rfl⟩)
      · rintro (rfl | ⟨hmem, hne⟩)
        · exact List.mem_cons_self _ _
        · rcases List.mem_cons.mp hmem with rfl | h2
          · exact absurd rfl hne
          · exact List.mem_cons_of_mem _ h2
    · rw [setSeen, if_neg hk]
      constructor
      · intro h
        rcases List.mem_cons.mp h with rfl | h2
        · exact Or.inr ⟨List.mem_cons_self _ _, hk⟩
        · rcases (ih hnd.2).mp h2 with rfl | ⟨hmem, hne⟩
          · exact Or.inl rfl
          · exact Or.inr ⟨List.mem_cons_of_mem _ hmem, hne⟩
      · rintro (rfl | ⟨hmem, hne⟩)
        · exact List.mem_cons_of_mem _ ((ih hnd.2).mpr (Or.inl rfl))
        · rcases List.mem_cons.mp hmem with rfl | h2
          · exact List.mem_cons_self _ _
          · exact List.mem_cons_of_mem _ ((ih hnd.2).mpr (Or.inr ⟨h2, hne⟩))

theorem setSeen_keys_replace (m : List SeenEntry) (fp : String) (v : VectorSearchRow × ℚ)
    (h : fp ∈ m.map Prod.fst) :
    (setSeen m fp v).map Prod.fst = m.map Prod.fst := by
  induction m with
  | nil => simp at h
  | cons p rest ih =>
    obtain ⟨k, w⟩ := p
    by_cases hk : k = fp
    · subst hk
      rw [setSeen, if_pos rfl]
      simp
    · rw [setSeen, if_neg hk]
      rw [List.map_cons] at h
      rcases List.mem_cons.mp h with h1 | h2
      · exact absurd h1.symm hk
      · rw [List.map_cons, List.map_cons, ih h2]

theorem setSeen_keys_append (m : List SeenEntry) (fp : String) (v : VectorSearchRow × ℚ)
    (h : fp ∉ m.map Prod.fst) :
    (setSeen m fp v).map Prod.fst = m.map Prod.fst ++ [fp] := by
  induction m with
  | nil => simp [setSeen]
  | cons p rest ih =>
    obtain ⟨k, w⟩ := p
    rw [List.map_cons, List.mem_cons] at h
    push_neg at h
    rw [setSeen, if_neg (fun hc => h.1 hc.symm)]
    rw [List.map_cons, List.map_cons, ih h.2]
    rfl

theorem dedupStep_inv (docInfo : String → Option DocInfo) (m : List SeenEntry)
    (prev : List VectorSearchRow) (row : VectorSearchRow)
    (h : DedupInv docInfo m prev) :
    DedupInv docInfo (dedupStep docInfo m row) (prev ++ [row]) := by
  obtain ⟨hok, hcov, hnd⟩ := h
  cases hdoc : docInfo row.hash with
  | none =>
    have hstep : dedupStep docInfo m row = m := by
      unfold dedupStep
      rw [hdoc]
    rw [hstep]
    refine ⟨?_, ?_, hnd⟩
    · intro e he
      obtain ⟨h1, h2, h3, h4⟩ := hok e he
      refine ⟨h1, List.mem_append_left _ h2, h3, ?_⟩
      intro row2 hrow2 doc2 hdoc2 hfp
      rcases List.mem_append.mp hrow2 with hrow2 | hrow2
      · exact h4 row2 hrow2 doc2 hdoc2 hfp
      · rcases List.mem_singleton.mp hrow2 with rfl
        rw [hdoc] at hdoc2
        exact absurd hdoc2 (by simp)
    · intro row2 hrow2 doc2 hdoc2
      rcases List.mem_append.mp hrow2 with hrow2 | hrow2
      · exact hcov row2 hrow2 doc2 hdoc2
      · rcases List.mem_singleton.mp hrow2 with rfl
        rw [hdoc] at hdoc2
        exact absurd hdoc2 (by simp)
  | some doc =>
    cases hlook : lookupSeen m (mkFile doc) with
    | none =>
      have hstep : dedupStep docInfo m row = setSeen m (mkFile doc) (row, row.distance) := by
        unfold dedupStep
        rw [hdoc]
        simp only []
        rw [hlook]
      have hnokey : ∀ e ∈ m, e.1 ≠ mkFile doc := (lookupSeen_eq_none m _).mp hlook
      have hfpnot : mkFile doc ∉ m.map Prod.fst := by
        intro hc
        obtain ⟨e, he, heq⟩ := List.mem_map.mp hc
        exact hnokey e he heq
      rw [hstep]
      refine ⟨?_, ?_, ?_⟩
      · intro e he
        rcases (setSeen_mem m _ _ hnd e).mp he with rfl | ⟨hmem, hne⟩
        · refine ⟨rfl, List.mem_append_right _ (List.mem_singleton_self row),
            ⟨doc, hdoc, rfl⟩, ?_⟩
          intro row2 hrow2 doc2 hdoc2 hfp
          rcases List.mem_append.mp hrow2 with hrow2 | hrow2
          · obtain ⟨e2, he2, hkey⟩ := hcov row2 hrow2 doc2 hdoc2
            exact absurd (hkey.trans hfp) (hnokey e2 he2)
          · rcases List.mem_singleton.mp hrow2 with rfl
            exact le_refl _
        · obtain ⟨h1, h2, h3, h4⟩ := hok e hmem
          refine ⟨h1, List.mem_append_left _ h2, h3, ?_⟩
          intro row2 hrow2 doc2 hdoc2 hfp
          rcases List.mem_append.mp hrow2 with hrow2 | hrow2
          · exact h4 row2 hrow2 doc2 hdoc2 hfp
          · rcases List.mem_singleton.mp hrow2 with rfl
            rw [hdoc] at hdoc2
            rcases Option.some_inj.mp hdoc2 with rfl
            exact absurd hfp hne.symm
      · intro row2 hrow2 doc2 hdoc2
        rcases List.mem_append.mp hrow2 with hrow2 | hrow2
        · obtain ⟨e2, he2, hkey⟩ := hcov row2 hrow2 doc2 hdoc2
          refine ⟨e2, (setSeen_mem m _ _ hnd e2).mpr (Or.inr ⟨he2, ?_⟩), hkey⟩
          rw [hkey]
          intro hc
          obtain ⟨e3, he3, hk3⟩ := hcov row2 hrow2 doc2 hdoc2
          exact hnokey e2 he2 (hkey.trans hc)
        · rcases List.mem_singleton.mp hrow2 with rfl
          rw [hdoc] at hdoc2
          rcases Option.some_inj.mp hdoc2 with rfl
          exact ⟨(mkFile doc, row2, row2.distance),
            (setSeen_mem m _ _ hnd _).mpr (Or.inl rfl), rfl⟩
      · rw [setSeen_keys_append m _ _ hfpnot, List.nodup_append]
        exact ⟨hnd, List.nodup_singleton _, fun a ha hb => hfpnot ((List.mem_singleton.mp hb) ▸ ha)⟩
    | some pair =>
      obtain ⟨w, bd⟩ := pair
      have hmemfp := lookupSeen_mem m (mkFile doc) (w, bd) hlook
      obtain ⟨q1, q2, q3, q4⟩ := hok _ hmemfp
      by_cases hlt : row.distance < bd
      · have hstep : dedupStep docInfo m row = setSeen m (mkFile doc) (row, row.distance) := by
          unfold dedupStep
          rw [hdoc]
          simp only []
          rw [hlook]
          simp [hlt]
        have hfpkey : mkFile doc ∈ m.map Prod.fst :=
          List.mem_map.mpr ⟨(mkFile doc, w, bd), hmemfp, rfl⟩
        rw [hstep]
        refine ⟨?_, ?_, ?_⟩
        · intro e he
          rcases (setSeen_mem m _ _ hnd e).mp he with rfl | ⟨hmem, hne⟩
          · refine ⟨rfl, List.mem_append_right _ (List.mem_singleton_self row),
              ⟨doc, hdoc, rfl⟩, ?_⟩
            intro row2 hrow2 doc2 hdoc2 hfp
            rcases List.mem_append.mp hrow2 with hrow2 | hrow2
            · have := q4 row2 hrow2 doc2 hdoc2 hfp
              simp only at this ⊢
              exact le_trans (le_of_lt hlt) this
            · rcases List.mem_singleton.mp hrow2 with rfl
              exact le_refl _
          · obtain ⟨h1, h2, h3, h4⟩ := hok e hmem
            refine ⟨h1, List.mem_append_left _ h2, h3, ?_⟩
            intro row2 hrow2 doc2 hdoc2 hfp
            rcases List.mem_append.mp hrow2 with hrow2 | hrow2
            · exact h4 row2 hrow2 doc2 hdoc2 hfp
            · rcases List.mem_singleton.mp hrow2 with rfl
              rw [hdoc] at hdoc2
              rcases Option.some_inj.mp hdoc2 with rfl
              exact absurd hfp hne.symm
        · intro row2 hrow2 doc2 hdoc2
          rcases List.mem_append.mp hrow2 with hrow2 | hrow2
          · obtain ⟨e2, he2, hkey⟩ := hcov row2 hrow2 doc2 hdoc2
            by_cases hsame : e2.1 = mkFile doc
            · exact ⟨(mkFile doc, row, row.distance),
                (setSeen_mem m _ _ hnd _).mpr (Or.inl rfl), hsame ▸ hkey⟩
            · exact ⟨e2, (setSeen_mem m _ _ hnd e2).mpr (Or.inr ⟨he2, hsame⟩), hkey⟩
          · rcases List.mem_singleton.mp hrow2 with rfl
            rw [hdoc] at hdoc2
            rcases Option.some_inj.mp hdoc2 with rfl
            exact ⟨(mkFile doc, row2, row2.distance),
              (setSeen_mem m _ _ hnd _).mpr (Or.inl rfl), rfl⟩
        · rw [setSeen_keys_replace m _ _ hfpkey]
          exact hnd
      · have hstep : dedupStep docInfo m row = m := by
          unfold dedupStep
          rw [hdoc]
          simp only []
          rw [hlook]
          simp [hlt]
        rw [hstep]
        refine ⟨?_, ?_, hnd⟩
        · intro e he
          obtain ⟨h1, h2, h3, h4⟩ := hok e he
          refine ⟨h1, List.mem_append_left _ h2, h3, ?_⟩
          intro row2 hrow2 doc2 hdoc2 hfp
          rcases List.mem_append.mp hrow2 with hrow2 | hrow2
          · exact h4 row2 hrow2 doc2 hdoc2 hfp
          · rcases List.mem_singleton.mp hrow2 with rfl
            rw [hdoc] at hdoc2
            rcases Option.some_inj.mp hdoc2 with rfl
            have hekey := lookupSeen_of_mem m e hnd he
            rw [← hfp, hlook] at hekey
            have hwbd : (w, bd) = e.2 := Option.some_inj.mp hekey
            rw [← hwbd]
            exact not_lt.mp hlt
        · intro row2 hrow2 doc2 hdoc2
          rcases List.mem_append.mp hrow2 with hrow2 | hrow2
          · exact hcov row2 hrow2 doc2 hdoc2
          · rcases List.mem_singleton.mp hrow2 with rfl
            rw [hdoc] at hdoc2
            rcases Option.some_inj.mp hdoc2 with rfl
            exact ⟨(mkFile doc, w, bd), hmemfp, rfl⟩

theorem dedupByDoc_inv (docInfo : String → Option DocInfo) (rows : List VectorSearchRow) :
    DedupInv docInfo (dedupByDoc docInfo rows) rows := by
  suffices h : ∀ (l : List VectorSearchRow) (m : List SeenEntry) (prev : List VectorSearchRow),
      DedupInv docInfo m prev →
      DedupInv docInfo (l.foldl (dedupStep docInfo) m) (prev ++ l) by
    have h0 : DedupInv docInfo [] [] := ⟨by simp, by simp, by simp⟩
    simpa [dedupByDoc] using h rows [] [] h0
  intro l
  induction l with
  | nil =>
    intro m prev h
    simpa using h
  | cons row rest ih =>
    intro m prev h
    have h2 := dedupStep_inv docInfo m prev row h
    have h3 := ih (dedupStep docInfo m row) (prev ++ [row]) h2
    simpa using h3

/-- C4: `searchVector` returns the empty list when the vec table is missing;
otherwise it keeps one hit per addressable document (the chunk of smallest
distance), sorts descending by the monotone score `1 / (1 + d)` (ascending
distance), truncates to the limit, and every hit carries `score = 1/(1+d)`,
`source = "vec"` and `chunkPos` of the winning chunk.  `hd` states that the
KNN distances are nonnegative. -/
theorem searchVector_spec (embedding : List ℚ) (docInfo : String → Option DocInfo)
    (rows : List VectorSearchRow) (limit : Nat)
    (hd : ∀ row ∈ rows, 0 ≤ row.distance) :
    (∀ (emb2 : Option (List ℚ)) (docInfo2 : String → Option DocInfo)
        (rows2 : List VectorSearchRow) (limit2 : Nat),
      searchVector false emb2 docInfo2 rows2 limit2 = []) ∧
    (searchVector true (some embedding) docInfo rows limit).length ≤ limit ∧
    (searchVector true (some embedding) docInfo rows limit).Pairwise
      (fun a b => b.score ≤ a.score) ∧
    ((searchVector true (some embedding) docInfo rows limit).map SearchResult.file).Nodup ∧
    (∀ hit ∈ searchVector true (some embedding) docInfo rows limit,
      ∃ row ∈ rows, ∃ doc, docInfo row.hash = some doc ∧
        hit = ⟨mkFile doc, mkFile doc, doc.title, doc.doc,
          1 / (1 + row.distance), "vec", row.pos⟩ ∧
        ∀ row2 ∈ rows, ∀ doc2, docInfo row2.hash = some doc2 →
          mkFile doc2 = mkFile doc → row.distance ≤ row2.distance) := by
  obtain ⟨hok, hcov, hnd⟩ := dedupByDoc_inv docInfo rows
  have hout : searchVector true (some embedding) docInfo rows limit
      = (((dedupByDoc docInfo rows).mergeSort
          (fun a b => decide (a.2.2 ≤ b.2.2))).take limit).map (vecHit docInfo) := rfl
  have hperm := List.mergeSort_perm (dedupByDoc docInfo rows)
    (fun a b => decide (a.2.2 ≤ b.2.2))
  have hsorted := @List.sorted_mergeSort SeenEntry
    (fun a b => decide (a.2.2 ≤ b.2.2))
    (fun a b c hab hbc => by
      rw [decide_eq_true_eq] at *
      exact le_trans hab hbc)
    (fun a b => by
      rcases le_total a.2.2 b.2.2 with h | h <;> simp [h])
    (dedupByDoc docInfo rows)
  have hsub := List.take_sublist limit
    ((dedupByDoc docInfo rows).mergeSort (fun a b => decide (a.2.2 ≤ b.2.2)))
  have htakeok : ∀ e ∈ ((dedupByDoc docInfo rows).mergeSort
      (fun a b => decide (a.2.2 ≤ b.2.2))).take limit, RowOk docInfo rows e :=
    fun e he => hok e (hperm.mem_iff.mp (hsub.subset he))
  have hvec : ∀ e ∈ ((dedupByDoc docInfo rows).mergeSort
      (fun a b => decide (a.2.2 ≤ b.2.2))).take limit,
      ∃ doc, docInfo e.2.1.hash = some doc ∧ e.1 = mkFile doc ∧
        vecHit docInfo e = ⟨mkFile doc, mkFile doc, doc.title, doc.doc,
          1 / (1 + e.2.1.distance), "vec", e.2.1.pos⟩ := by
    intro e he
    obtain ⟨h1, h2, ⟨doc, hdoc, hkey⟩, h4⟩ := htakeok e he
    refine ⟨doc, hdoc, hkey, ?_⟩
    unfold vecHit
    rw [hdoc]
  refine ⟨?_, ?_, ?_, ?_, ?_⟩
  · intro emb2 docInfo2 rows2 limit2
    rfl
  · rw [hout, List.length_map]
    exact List.length_take_le _ _
  · rw [hout, List.pairwise_map]
    refine List.Pairwise.imp_of_mem ?_ (List.Pairwise.sublist hsub hsorted)
    intro a b ha hb hab
    rw [decide_eq_true_eq] at hab
    obtain ⟨doca, hdoca, hkeya, hvala⟩ := hvec a ha
    obtain ⟨docb, hdocb, hkeyb, hvalb⟩ := hvec b hb
    obtain ⟨ha1, ha2, _, _⟩ := htakeok a ha
    obtain ⟨hb1, hb2, _, _⟩ := htakeok b hb
    rw [hvala, hvalb]
    show (1 : ℚ) / (1 + b.2.1.distance) ≤ 1 / (1 + a.2.1.distance)
    have hda : 0 ≤ a.2.1.distance := hd _ ha2
    have hdb : 0 ≤ b.2.1.distance := hd _ hb2
    rw [ha1, hb1] at hab
    have hpos : (0 : ℚ) < 1 + a.2.1.distance := by linarith
    exact one_div_le_one_div_of_le hpos (by linarith)
  · rw [hout]
    have hcong : (((dedupByDoc docInfo rows).mergeSort
        (fun a b => decide (a.2.2 ≤ b.2.2))).take limit).map
          (fun e => (vecHit docInfo e).file)
        = (((dedupByDoc docInfo rows).mergeSort
          (fun a b => decide (a.2.2 ≤ b.2.2))).take limit).map Prod.fst := by
      apply List.map_congr_left
      intro e he
      obtain ⟨doc, hdoc, hkey, hval⟩ := hvec e he
      rw [hval, hkey]
    rw [List.map_map]
    show (((dedupByDoc docInfo rows).mergeSort
        (fun a b => decide (a.2.2 ≤ b.2.2))).take limit).map
          (fun e => (vecHit docInfo e).file) |>.Nodup
    rw [hcong]
    have hkeysperm := hperm.map Prod.fst
    have hkeysnd : (((dedupByDoc docInfo rows).mergeSort
        (fun a b => decide (a.2.2 ≤ b.2.2))).map Prod.fst).Nodup :=
      (hkeysperm.nodup_iff).mpr hnd
    exact List.Nodup.sublist (hsub.map Prod.fst) hkeysnd
  · intro hit hmem
    rw [hout] at hmem
    obtain ⟨e, he, rfl⟩ := List.mem_map.mp hmem
    obtain ⟨h1, h2, _, h4⟩ := htakeok e he
    obtain ⟨doc, hdoc, hkey, hval⟩ := hvec e he
    refine ⟨e.2.1, h2, doc, hdoc, hval, ?_⟩
    intro row2 hrow2 doc2 hdoc2 hfp
    have := h4 row2 hrow2 doc2 hdoc2 (by rw [hfp, hkey])
    rwa [h1] at this

/-- Concrete inputs for the C4 witness. -/
def vecRowsEx : List VectorSearchRow := [⟨"h1", 2, 5⟩, ⟨"h1", 1, 9⟩, ⟨"h2", 3, 0⟩]

/-- Concrete document info for the C4 witness. -/
def vecDocInfoEx : String → Option DocInfo := fun h =>
  if h = "h1" then some ⟨"c", "a.md", "A", "body a"⟩
  else if h = "h2" then some ⟨"c", "b.md", "B", "body b"⟩
  else none

/-- Witness for C4 at a concrete input. -/
theorem searchVector_spec_witness :
    (∀ (emb2 : Option (List ℚ)) (docInfo2 : String → Option DocInfo)
        (rows2 : List VectorSearchRow) (limit2 : Nat),
      searchVector false emb2 docInfo2 rows2 limit2 = []) ∧
    (searchVector true (some []) vecDocInfoEx vecRowsEx 2).length ≤ 2 ∧
    (searchVector true (some []) vecDocInfoEx vecRowsEx 2).Pairwise
      (fun a b => b.score ≤ a.score) ∧
    ((searchVector true (some []) vecDocInfoEx vecRowsEx 2).map SearchResult.file).Nodup ∧
    (∀ hit ∈ searchVector true (some []) vecDocInfoEx vecRowsEx 2,
      ∃ row ∈ vecRowsEx, ∃ doc, vecDocInfoEx row.hash = some doc ∧
        hit = ⟨mkFile doc, mkFile doc, doc.title, doc.doc,
          1 / (1 + row.distance), "vec", row.pos⟩ ∧
        ∀ row2 ∈ vecRowsEx, ∀ doc2, vecDocInfoEx row2.hash = some doc2 →
          mkFile doc2 = mkFile doc → row.distance ≤ row2.distance) :=
  searchVector_spec [] vecDocInfoEx vecRowsEx 2 (by decide)

/-! ## Reciprocal Rank Fusion (part_009, `reciprocalRankFusion`)

Scores are exact rationals; the `scores` Map is an association list in
insertion order.  Updating an existing key mutates the stored object in
place (score accumulation, best-rank minimum) and a new key is appended. -/

/-- Ranked search hit as consumed by `reciprocalRankFusion`. -/
structure RankedResult where
  file : String
  displayPath : String
  title : String
  body : String
  score : ℚ
  deriving Repr, DecidableEq

/-- Value stored in the `scores` Map. -/
structure FuseEntry where
  score : ℚ
  displayPath : String
  title : String
  body : String
  bestRank : Nat
  deriving Repr, DecidableEq

/-- State of the `scores` Map. -/
abbrev FuseState := List (String × FuseEntry)

/-- JavaScript `scores.get(file)`. -/
def lookupFuse (m : FuseState) (f : String) : Option FuseEntry :=
  (m.find? (fun p => decide (p.1 = f))).map (fun p => p.2)

/-- Lines 61–73 of part_009: accumulate into an existing entry
(`score += rrfScore`, `bestRank = min bestRank rank`) or insert a fresh
entry for a new file. -/
def fuseUpd : FuseState → RankedResult → ℚ → Nat → FuseState
  | [], doc, sc, rank => [(doc.file, ⟨sc, doc.displayPath, doc.title, doc.body, rank⟩)]
  | (key, e) :: rest, doc, sc, rank =>
    if key = doc.file then
      (key, { e with score := e.score + sc, bestRank := min e.bestRank rank }) :: rest
    else (key, e) :: fuseUpd rest doc sc rank

/-- Inner loop over one ranked list (lines 58–74), with `rank` counting from
the given start. -/
def fuseList (k w : ℚ) : Nat → List RankedResult → FuseState → FuseState
  | _, [], m => m
  | rank, doc :: rest, m =>
    fuseList k w (rank + 1) rest (fuseUpd m doc (w / (k + (rank : ℚ) + 1)) rank)

/-- Outer loop over the input rank lists (lines 55–75), with per-list weight
`weights[listIdx] ?? 1.0`. -/
def fuseLists (k : ℚ) (weights : List ℚ) : Nat → List (List RankedResult) → FuseState → FuseState
  | _, [], m => m
  | listIdx, l :: rest, m =>
    fuseLists k weights (listIdx + 1) rest (fuseList k (weights.getD listIdx 1) 0 l m)

/-- Best-rank bonus (lines 81–83): `0.05` at rank 0, `0.02` at ranks 1–2. -/
def bonusOf (bestRank : Nat) : ℚ :=
  if bestRank = 0 then 5 / 100 else if bestRank ≤ 2 then 2 / 100 else 0

/-- Embedding of `reciprocalRankFusion(resultLists, weights, k)`. -/
def reciprocalRankFusion (resultLists : List (List RankedResult)) (weights : List ℚ)
    (k : ℚ) : List RankedResult :=
  ((fuseLists k weights 0 resultLists []).map (fun p =>
    (⟨p.1, p.2.displayPath, p.2.title, p.2.body, p.2.score + bonusOf p.2.bestRank⟩
      : RankedResult))).mergeSort (fun a b => decide (b.score ≤ a.score))

/-- Specification side: 0-based rank of the first occurrence of file `f` in
a ranked list, `none` when absent. -/
def rankOf (f : String) : List RankedResult → Option Nat
  | [] => none
  | d :: rest => if d.file = f then some 0 else (rankOf f rest).map (fun i => i + 1)

/-- Specification side: RRF term contributed by one list, `w / (k + rank + 1)`
(with the rank shifted by `rank0`), zero when the file is absent. -/
def contribAt (k w : ℚ) (rank0 : Nat) (o : Option Nat) : ℚ :=
  match o with
  | some rk => w / (k + ((rank0 + rk : Nat) : ℚ) + 1)
  | none => 0

/-- Specification side: `Σᵢ wᵢ / (k + rankᵢ(f) + 1)` over the lists with
indices counting from `i`. -/
def rrfSumFrom (k : ℚ) (ws : List ℚ) : Nat → List (List RankedResult) → String → ℚ
  | _, [], _ => 0
  | i, l :: rest, f => contribAt k (ws.getD i 1) 0 (rankOf f l) + rrfSumFrom k ws (i + 1) rest f

/-- Minimum of two optional ranks (`none` = absent). -/
def optMin (a b : Option Nat) : Option Nat :=
  match a, b with
  | none, b => b
  | some x, none => some x
  | some x, some y => some (min x y)

/-- Specification side: best (smallest) rank of `f` across the lists. -/
def bestRankFrom : List (List RankedResult) → String → Option Nat
  | [], _ => none
  | l :: rest, f => optMin (rankOf f l) (bestRankFrom rest f)

/-- Specification side: the best-rank bonus of the claim. -/
def bestBonus (lists : List (List RankedResult)) (f : String) : ℚ :=
  match bestRankFrom lists f with
  | some br => bonusOf br
  | none => 0

/-- Score of an optional map entry (absent = 0). -/
def scoreOf (o : Option FuseEntry) : ℚ :=
  match o with
  | some e => e.score
  | none => 0

/-- Best rank of an optional map entry. -/
def brOf (o : Option FuseEntry) : Option Nat := o.map (fun e => e.bestRank)

theorem lookupFuse_nil (f : String) : lookupFuse [] f = none := rfl

theorem lookupFuse_fuseUpd (m : FuseState) (doc : RankedResult) (sc : ℚ) (rank : Nat)
    (f : String) :
    lookupFuse (fuseUpd m doc sc rank) f =
      if f = doc.file then
        match lookupFuse m f with
        | some e => some { e with score := e.score + sc, bestRank := min e.bestRank rank }
        | none => some ⟨sc, doc.displayPath, doc.title, doc.body, rank⟩
      else lookupFuse m f := by
  induction m with
  | nil =>
    by_cases hf : f = doc.file
    · subst hf
      unfold fuseUpd lookupFuse
      rw [List.find?_cons_of_pos _ (by simp), if_pos rfl]
      rfl
    · have hf2 : ¬doc.file = f := fun h => hf h.symm
      unfold fuseUpd lookupFuse
      rw [List.find?_cons_of_neg _ (by simpa using hf2), if_neg hf]
  | cons p rest ih =>
    obtain ⟨key, e⟩ := p
    by_cases hk : key = doc.file
    · rw [fuseUpd, if_pos hk]
      by_cases hf : f = key
      · have hl1 : lookupFuse ((key, e) :: rest) f = some e := by
          unfold lookupFuse
          rw [List.find?_cons_of_pos _ (by simp [hf])]
          rfl
        have hl2 : lookupFuse
            ((key, { e with score := e.score + sc, bestRank := min e.bestRank rank }) :: rest) f
            = some { e with score := e.score + sc, bestRank := min e.bestRank rank } := by
          unfold lookupFuse
          rw [List.find?_cons_of_pos _ (by simp [hf])]
          rfl
        rw [hl2, if_pos (hf.trans hk), hl1]
      · have hl1 : lookupFuse ((key, e) :: rest) f = lookupFuse rest f := by
          unfold lookupFuse
          rw [List.find?_cons_of_neg _ (by simp only [decide_eq_true_eq]; exact fun h => hf h.symm)]
        have hl2 : lookupFuse
            ((key, { e with score := e.score + sc, bestRank := min e.bestRank rank }) :: rest) f
            = lookupFuse rest f := by
          unfold lookupFuse
          rw [List.find?_cons_of_neg _ (by simp only [decide_eq_true_eq]; exact fun h => hf h.symm)]
        rw [hl2, hl1, if_neg (fun h => hf (h.trans hk.symm))]
    · rw [fuseUpd, if_neg hk]
      by_cases hf : f = key
      · have hl1 : lookupFuse ((key, e) :: rest) f = some e := by
          unfold lookupFuse
          rw [List.find?_cons_of_pos _ (by simp [hf])]
          rfl
        have hl2 : lookupFuse ((key, e) :: fuseUpd rest doc sc rank) f = some e := by
          unfold lookupFuse
          rw [List.find?_cons_of_pos _ (by simp [hf])]
          rfl
        rw [hl2, if_neg (fun h => hk (hf.symm.trans h)), hl1]
      · have hl1 : lookupFuse ((key, e) :: rest) f = lookupFuse rest f := by
          unfold lookupFuse
          rw [List.find?_cons_of_neg _ (by simp only [decide_eq_true_eq]; exact fun h => hf h.symm)]
        have hl2 : lookupFuse ((key, e) :: fuseUpd rest doc sc rank) f
            = lookupFuse (fuseUpd rest doc sc rank) f := by
          unfold lookupFuse
          rw [List.find?_cons_of_neg _ (by simp only [decide_eq_true_eq]; exact fun h => hf h.symm)]
        rw [hl2, ih, hl1]

theorem rankOf_eq_none (f : String) (l : List RankedResult) :
    rankOf f l = none ↔ ∀ r ∈ l, r.file ≠ f := by
  induction l with
  | nil => simp [rankOf]
  | cons d rest ih =>
    by_cases hd : d.file = f
    · simp [rankOf, hd]
    · simp [rankOf, hd, ih]

theorem fuseList_scoreOf (k w : ℚ) (l : List RankedResult)
    (hnd : (l.map RankedResult.file).Nodup) :
    ∀ (rank0 : Nat) (m : FuseState) (f : String),
      scoreOf (lookupFuse (fuseList k w rank0 l m) f)
        = scoreOf (lookupFuse m f) + contribAt k w rank0 (rankOf f l) := by
  induction l with
  | nil =>
    intro rank0 m f
    simp [fuseList, rankOf, contribAt]
  | cons doc rest ih =>
    intro rank0 m f
    rw [List.map_cons, List.nodup_cons] at hnd
    rw [fuseList]
    rw [ih hnd.2 (rank0 + 1) _ f]
    by_cases hf : f = doc.file
    · subst hf
      have hrest : rankOf doc.file rest = none :=
        (rankOf_eq_none _ _).mpr (fun r hr hcontra =>
          hnd.1 (hcontra ▸ List.mem_map.mpr ⟨r, hr, rfl⟩))
      rw [hrest]
      have hupd : scoreOf (lookupFuse (fuseUpd m doc (w / (k + (rank0 : ℚ) + 1)) rank0) doc.file)
          = scoreOf (lookupFuse m doc.file) + w / (k + (rank0 : ℚ) + 1) := by
        rw [lookupFuse_fuseUpd, if_pos rfl]
        cases lookupFuse m doc.file with
        | none => simp [scoreOf]
        | some e => simp [scoreOf]
      rw [hupd]
      rw [rankOf, if_pos rfl]
      unfold contribAt
      push_cast
      ring
    · have hupd : lookupFuse (fuseUpd m doc (w / (k + (rank0 : ℚ) + 1)) rank0) f
          = lookupFuse m f := by
        rw [lookupFuse_fuseUpd, if_neg hf]
      rw [hupd]
      rw [rankOf, if_neg (fun h => hf h.symm)]
      cases hrk : rankOf f rest with
      | none => simp [contribAt]
      | some rk =>
        simp only [Option.map_some', contribAt]
        have hcast : rank0 + 1 + rk = rank0 + (rk + 1) := by omega
        rw [hcast]

theorem fuseList_brOf (k w : ℚ) (l : List RankedResult)
    (hnd : (l.map RankedResult.file).Nodup) :
    ∀ (rank0 : Nat) (m : FuseState) (f : String),
      brOf (lookupFuse (fuseList k w rank0 l m) f)
        = optMin (brOf (lookupFuse m f)) ((rankOf f l).map (fun rk => rank0 + rk)) := by
  induction l with
  | nil =>
    intro rank0 m f
    simp only [fuseList, rankOf, Option.map_none']
    cases lookupFuse m f <;> rfl
  | cons doc rest ih =>
    intro rank0 m f
    rw [List.map_cons, List.nodup_cons] at hnd
    rw [fuseList]
    rw [ih hnd.2 (rank0 + 1) _ f]
    by_cases hf : f = doc.file
    · subst hf
      have hrest : rankOf doc.file rest = none :=
        (rankOf_eq_none _ _).mpr (fun r hr hcontra =>
          hnd.1 (hcontra ▸ List.mem_map.mpr ⟨r, hr, rfl⟩))
      rw [hrest]
      have hupd : brOf (lookupFuse (fuseUpd m doc (w / (k + (rank0 : ℚ) + 1)) rank0) doc.file)
          = optMin (brOf (lookupFuse m doc.file)) (some rank0) := by
        rw [lookupFuse_fuseUpd, if_pos rfl]
        cases lookupFuse m doc.file with
        | none => rfl
        | some e => rfl
      rw [hupd]
      rw [rankOf, if_pos rfl]
      simp only [Option.map_none', Option.map_some']
      cases brOf (lookupFuse m doc.file) <;> rfl
    · have hupd : lookupFuse (fuseUpd m doc (w / (k + (rank0 : ℚ) + 1)) rank0) f
          = lookupFuse m f := by
        rw [lookupFuse_fuseUpd, if_neg hf]
      rw [hupd]
      rw [rankOf, if_neg (fun h => hf h.symm)]
      cases hrk : rankOf f rest with
      | none => rfl
      | some rk =>
        simp only [Option.map_some']
        have hcast : rank0 + 1 + rk = rank0 + (rk + 1) := by omega
        rw [hcast]

theorem fuseLists_scoreOf (k : ℚ) (ws : List ℚ) (lists : List (List RankedResult))
    (hnd : ∀ l ∈ lists, (l.map RankedResult.file).Nodup) :
    ∀ (i : Nat) (m : FuseState) (f : String),
      scoreOf (lookupFuse (fuseLists k ws i lists m) f)
        = scoreOf (lookupFuse m f) + rrfSumFrom k ws i lists f := by
  induction lists with
  | nil =>
    intro i m f
    simp [fuseLists, rrfSumFrom]
  | cons l rest ih =>
    intro i m f
    rw [fuseLists]
    rw [ih (fun l2 hl2 => hnd l2 (List.mem_cons_of_mem _ hl2)) (i + 1) _ f]
    rw [fuseList_scoreOf k (ws.getD i 1) l (hnd l (List.mem_cons_self _ _)) 0 m f]
    rw [rrfSumFrom]
    ring

theorem optMin_assoc (a b c : Option Nat) :
    optMin (optMin a b) c = optMin a (optMin b c) := by
  cases a <;> cases b <;> cases c <;> simp [optMin, Nat.min_assoc]

theorem optMin_none_right (a : Option Nat) : optMin a none = a := by
  cases a <;> rfl

theorem fuseLists_brOf (k : ℚ) (ws : List ℚ) (lists : List (List RankedResult))
    (hnd : ∀ l ∈ lists, (l.map RankedResult.file).Nodup) :
    ∀ (i : Nat) (m : FuseState) (f : String),
      brOf (lookupFuse (fuseLists k ws i lists m) f)
        = optMin (brOf (lookupFuse m f)) (bestRankFrom lists f) := by
  induction lists with
  | nil =>
    intro i m f
    rw [fuseLists, bestRankFrom, optMin_none_right]
  | cons l rest ih =>
    intro i m f
    rw [fuseLists]
    rw [ih (fun l2 hl2 => hnd l2 (List.mem_cons_of_mem _ hl2)) (i + 1) _ f]
    rw [fuseList_brOf k (ws.getD i 1) l (hnd l (List.mem_cons_self _ _)) 0 m f]
    have hzero : (rankOf f l).map (fun rk => 0 + rk) = rankOf f l := by
      cases rankOf f l <;> simp
    rw [hzero, bestRankFrom, optMin_assoc]

theorem fuseUpd_keys_mem (m : FuseState) (doc : RankedResult) (sc : ℚ) (rank : Nat)
    (h : doc.file ∈ m.map Prod.fst) :
    (fuseUpd m doc sc rank).map Prod.fst = m.map Prod.fst := by
  induction m with
  | nil => simp at h
  | cons p rest ih =>
    obtain ⟨key, e⟩ := p
    by_cases hk : key = doc.file
    · rw [fuseUpd, if_pos hk]
      simp
    · rw [fuseUpd, if_neg hk]
      rw [List.map_cons] at h
      rcases List.mem_cons.mp h with h1 | h2
      · exact absurd h1.symm hk
      · rw [List.map_cons, List.map_cons, ih h2]

theorem fuseUpd_keys_notmem (m : FuseState) (doc : RankedResult) (sc : ℚ) (rank : Nat)
    (h : doc.file ∉ m.map Prod.fst) :
    (fuseUpd m doc sc rank).map Prod.fst = m.map Prod.fst ++ [doc.file] := by
  induction m with
  | nil => simp [fuseUpd]
  | cons p rest ih =>
    obtain ⟨key, e⟩ := p
    rw [List.map_cons, List.mem_cons] at h
    push_neg at h
    rw [fuseUpd, if_neg (fun hc => h.1 hc.symm)]
    rw [List.map_cons, List.map_cons, ih h.2]
    rfl

theorem fuseUpd_keys_nodup (m : FuseState) (doc : RankedResult) (sc : ℚ) (rank : Nat)
    (h : (m.map Prod.fst).Nodup) : ((fuseUpd m doc sc rank).map Prod.fst).Nodup := by
  by_cases hmem : doc.file ∈ m.map Prod.fst
  · rw [fuseUpd_keys_mem m doc sc rank hmem]
    exact h
  · rw [fuseUpd_keys_notmem m doc sc rank hmem, List.nodup_append]
    exact ⟨h, List.nodup_singleton _,
      fun a ha hb => hmem ((List.mem_singleton.mp hb) ▸ ha)⟩

theorem fuseList_keys_nodup (k w : ℚ) (l : List RankedResult) :
    ∀ (rank0 : Nat) (m : FuseState), (m.map Prod.fst).Nodup →
      ((fuseList k w rank0 l m).map Prod.fst).Nodup := by
  induction l with
  | nil =>
    intro rank0 m h
    exact h
  | cons doc rest ih =>
    intro rank0 m h
    rw [fuseList]
    exact ih (rank0 + 1) _ (fuseUpd_keys_nodup m doc _ rank0 h)

theorem fuseLists_keys_nodup (k : ℚ) (ws : List ℚ) (lists : List (List RankedResult)) :
    ∀ (i : Nat) (m : FuseState), (m.map Prod.fst).Nodup →
      ((fuseLists k ws i lists m).map Prod.fst).Nodup := by
  induction lists with
  | nil =>
    intro i m h
    exact h
  | cons l rest ih =>
    intro i m h
    rw [fuseLists]
    exact ih (i + 1) _ (fuseList_keys_nodup k _ l 0 m h)

theorem lookupFuse_of_mem (m : FuseState) (p : String × FuseEntry)
    (hnd : (m.map Prod.fst).Nodup) (hp : p ∈ m) : lookupFuse m p.1 = some p.2 := by
  induction m with
  | nil => exact absurd hp (List.not_mem_nil p)
  | cons q rest ih =>
    rcases List.mem_cons.mp hp with rfl | hp2
    · unfold lookupFuse
      rw [List.find?_cons_of_pos _ (by simp)]
      rfl
    · have hne : q.1 ≠ p.1 := by
        intro hcontra
        have : p.1 ∈ rest.map Prod.fst := List.mem_map.mpr ⟨p, hp2, rfl⟩
        rw [List.map_cons] at hnd
        exact (List.nodup_cons.mp hnd).1 (hcontra ▸ this)
      unfold lookupFuse
      rw [List.find?_cons_of_neg _ (by simpa using hne)]
      exact ih (List.nodup_cons.mp (List.map_cons _ q rest ▸ hnd)).2 hp2

theorem lookupFuse_isSome (m : FuseState) (f : String) :
    (lookupFuse m f).isSome ↔ ∃ e, (f, e) ∈ m := by
  unfold lookupFuse
  rw [Option.isSome_map']
  rw [List.find?_isSome]
  constructor
  · rintro ⟨p, hp, hdec⟩
    rw [decide_eq_true_eq] at hdec
    exact ⟨p.2, by rw [← hdec]; simpa using hp⟩
  · rintro ⟨e, he⟩
    exact ⟨(f, e), he, by simp⟩

theorem rankOf_isSome (f : String) (l : List RankedResult) :
    (rankOf f l).isSome ↔ ∃ r ∈ l, r.file = f := by
  rw [← Option.ne_none_iff_isSome]
  constructor
  · intro h
    by_contra hcon
    push_neg at hcon
    exact h ((rankOf_eq_none f l).mpr hcon)
  · rintro ⟨r, hr, hrf⟩ hnone
    exact (rankOf_eq_none f l).mp hnone r hr hrf

theorem optMin_isSome (a b : Option Nat) :
    (optMin a b).isSome ↔ a.isSome ∨ b.isSome := by
  cases a <;> cases b <;> simp [optMin]

theorem bestRankFrom_isSome (lists : List (List RankedResult)) (f : String) :
    (bestRankFrom lists f).isSome ↔ ∃ l ∈ lists, ∃ r ∈ l, r.file = f := by
  induction lists with
  | nil => simp [bestRankFrom]
  | cons l rest ih =>
    rw [bestRankFrom, optMin_isSome, rankOf_isSome, ih]
    simp

/-- C2: `reciprocalRankFusion` assigns every returned document the score
`Σᵢ wᵢ / (k + rankᵢ(d) + 1)` over the lists where it appears (0-based ranks,
weight default 1.0), plus the best-rank bonus `0.05` when its best rank in
any list is 0 and `0.02` when it is 1 or 2 (0 otherwise), and returns the
documents of the input lists sorted descending by this total.  `hnd`
states that no file occurs twice within one input list, which is what makes
each per-list rank well defined. -/
theorem reciprocalRankFusion_spec (resultLists : List (List RankedResult))
    (weights : List ℚ) (k : ℚ)
    (hnd : ∀ l ∈ resultLists, (l.map RankedResult.file).Nodup) :
    (∀ r ∈ reciprocalRankFusion resultLists weights k,
      r.score = rrfSumFrom k weights 0 resultLists r.file + bestBonus resultLists r.file) ∧
    (reciprocalRankFusion resultLists weights k).Pairwise (fun a b => b.score ≤ a.score) ∧
    (∀ f, (∃ r ∈ reciprocalRankFusion resultLists weights k, r.file = f) ↔
      ∃ l ∈ resultLists, ∃ r ∈ l, r.file = f) := by
  have hndk : ((fuseLists k weights 0 resultLists []).map Prod.fst).Nodup :=
    fuseLists_keys_nodup k weights resultLists 0 [] (by simp)
  have hsc : ∀ f, scoreOf (lookupFuse (fuseLists k weights 0 resultLists []) f)
      = rrfSumFrom k weights 0 resultLists f := by
    intro f
    rw [fuseLists_scoreOf k weights resultLists hnd 0 [] f, lookupFuse_nil]
    show 0 + _ = _
    ring
  have hbr : ∀ f, brOf (lookupFuse (fuseLists k weights 0 resultLists []) f)
      = bestRankFrom resultLists f := by
    intro f
    rw [fuseLists_brOf k weights resultLists hnd 0 [] f, lookupFuse_nil]
    rfl
  have hperm := List.mergeSort_perm ((fuseLists k weights 0 resultLists []).map (fun p =>
    (⟨p.1, p.2.displayPath, p.2.title, p.2.body, p.2.score + bonusOf p.2.bestRank⟩
      : RankedResult))) (fun a b => decide (b.score ≤ a.score))
  refine ⟨?_, ?_, ?_⟩
  · intro r hr
    rw [reciprocalRankFusion] at hr
    have hr2 := hperm.mem_iff.mp hr
    obtain ⟨p, hp, rfl⟩ := List.mem_map.mp hr2
    have hlook := lookupFuse_of_mem _ p hndk hp
    have hscp := hsc p.1
    have hbrp := hbr p.1
    rw [hlook] at hscp hbrp
    show p.2.score + bonusOf p.2.bestRank = _
    rw [show scoreOf (some p.2) = p.2.score from rfl] at hscp
    rw [show brOf (some p.2) = some p.2.bestRank from rfl] at hbrp
    rw [← hscp]
    unfold bestBonus
    rw [← hbrp]
  · rw [reciprocalRankFusion]
    have hs := @List.sorted_mergeSort RankedResult
      (fun a b => decide (b.score ≤ a.score))
      (fun a b c hab hbc => by
        rw [decide_eq_true_eq] at *
        exact le_trans hbc hab)
      (fun a b => by
        rcases le_total a.score b.score with h | h <;> simp [h])
      ((fuseLists k weights 0 resultLists []).map (fun p =>
        (⟨p.1, p.2.displayPath, p.2.title, p.2.body, p.2.score + bonusOf p.2.bestRank⟩
          : RankedResult)))
    exact hs.imp (fun hab => by rwa [decide_eq_true_eq] at hab)
  · intro f
    rw [reciprocalRankFusion]
    rw [← bestRankFrom_isSome]
    constructor
    · rintro ⟨r, hr, rfl⟩
      obtain ⟨p, hp, rfl⟩ := List.mem_map.mp (hperm.mem_iff.mp hr)
      have hlook := lookupFuse_of_mem _ p hndk hp
      have hbrp := hbr p.1
      rw [hlook] at hbrp
      rw [← hbrp]
      rfl
    · intro hsome
      have hbrf := hbr f
      rw [← hbrf] at hsome
      have hlsome : (lookupFuse (fuseLists k weights 0 resultLists []) f).isSome := by
        unfold brOf at hsome
        rwa [Option.isSome_map'] at hsome
      obtain ⟨e, he⟩ := (lookupFuse_isSome _ f).mp hlsome
      refine ⟨⟨f, e.displayPath, e.title, e.body, e.score + bonusOf e.bestRank⟩, ?_, rfl⟩
      rw [hperm.mem_iff]
      exact List.mem_map.mpr ⟨(f, e), he, rfl⟩

/-- Concrete input lists for the C2 witness. -/
def rrfListsEx : List (List RankedResult) :=
  [[⟨"a", "a", "A", "", 9⟩, ⟨"b", "b", "B", "", 7⟩], [⟨"b", "b", "B", "", 5⟩]]

/-- Witness for C2 at a concrete input. -/
theorem reciprocalRankFusion_spec_witness :
    (∀ r ∈ reciprocalRankFusion rrfListsEx [2] 60,
      r.score = rrfSumFrom 60 [2] 0 rrfListsEx r.file + bestBonus rrfListsEx r.file) ∧
    (reciprocalRankFusion rrfListsEx [2] 60).Pairwise (fun a b => b.score ≤ a.score) ∧
    (∀ f, (∃ r ∈ reciprocalRankFusion rrfListsEx [2] 60, r.file = f) ↔
      ∃ l ∈ rrfListsEx, ∃ r ∈ l, r.file = f) :=
  reciprocalRankFusion_spec rrfListsEx [2] 60 (by decide)

/-! ## LLM reranking (part_017, `Ollama.rerankSingle` / `parseRerankResponse` /
`rerank`)

The transcendental `Math.exp` is an abstract parameter `exp`; logprobs and
scores are exact rationals.  `rerank` (line 328) sorts the collected
per-document results descending by score. -/

/-- Token with its log-probability, as returned by the provider. -/
structure TokenLogProb where
  token : List Char
  logprob : ℚ
  deriving Repr, DecidableEq

/-- Result of `generate` (`logprobs` may be empty when absent). -/
structure GenerateResult where
  text : List Char
  logprobs : List TokenLogProb
  deriving Repr, DecidableEq

/-- Per-document rerank result. -/
structure RerankDocumentResult where
  file : String
  relevant : Bool
  confidence : ℚ
  score : ℚ
  rawToken : List Char
  logprob : ℚ
  deriving Repr, DecidableEq

/-- JavaScript `text.toLowerCase().trim()` (ASCII lowering; `trim` strips
whitespace from both ends). -/
def normToken (text : List Char) : List Char :=
  (((text.map Char.toLower).dropWhile Char.isWhitespace).reverse.dropWhile
    Char.isWhitespace).reverse

/-- Embedding of `Ollama.parseRerankResponse` (lines 404–434): branch on the
lowercased, trimmed single response token; `confidence = exp(logprob)` with
`logprob = result.logprobs?.[0]?.logprob ?? 0`. -/
def parseRerankResponse (exp : ℚ → ℚ) (file : String) (result : GenerateResult) :
    RerankDocumentResult :=
  let token := normToken result.text
  let logprob := ((result.logprobs.head?).map (fun t => t.logprob)).getD 0
  let confidence := exp logprob
  let rawToken := ((result.logprobs.head?).map (fun t => t.token)).getD token
  if List.isPrefixOf ['y', 'e', 's'] token then
    ⟨file, true, confidence, 1 / 2 + 1 / 2 * confidence, rawToken, logprob⟩
  else if List.isPrefixOf ['n', 'o'] token then
    ⟨file, false, confidence, 1 / 2 * (1 - confidence), rawToken, logprob⟩
  else
    ⟨file, false, confidence, 3 / 10, rawToken, logprob⟩

/-- Embedding of `Ollama.rerankSingle` (lines 356–399) after the `generate`
call: a `null` generate result yields the fixed fallback record (lines
387–396) instead of raising. -/
def rerankSingle (exp : ℚ → ℚ) (file : String) (result : Option GenerateResult) :
    RerankDocumentResult :=
  match result with
  | none => ⟨file, false, 0, 0, [], 0⟩
  | some r => parseRerankResponse exp file r

/-- Line 328 of part_017 (`Ollama.rerank`):
`results.sort((a, b) => b.score - a.score)`. -/
def rerankSortResults (results : List RerankDocumentResult) : List RerankDocumentResult :=
  results.mergeSort (fun a b => decide (b.score ≤ a.score))

/-- Counterexample to C3 as stated: a failed LLM call (null generate result)
contributes score 0, which differs from the neutral score 3/10 that an
unrecognized token (for example `"maybe"`) contributes. -/
theorem rerankSingle_failed_not_neutral :
    (rerankSingle (fun _ => 1) "doc.md" none).score = 0 ∧
    (rerankSingle (fun _ => 1) "doc.md" (some ⟨['m', 'a', 'y', 'b', 'e'], []⟩)).score = 3 / 10 ∧
    (rerankSingle (fun _ => 1) "doc.md" none).score
      ≠ (rerankSingle (fun _ => 1) "doc.md" (some ⟨['m', 'a', 'y', 'b', 'e'], []⟩)).score := by
  refine ⟨rfl, ?_, ?_⟩
  · show (parseRerankResponse (fun _ => 1) "doc.md" ⟨['m', 'a', 'y', 'b', 'e'], []⟩).score = 3 / 10
    simp only [parseRerankResponse]
    rw [if_neg (by decide), if_neg (by decide)]
  · intro h
    rw [show (rerankSingle (fun _ => 1) "doc.md" none).score = 0 from rfl] at h
    have h2 : (rerankSingle (fun _ => 1) "doc.md" (some ⟨['m', 'a', 'y', 'b', 'e'], []⟩)).score = 3 / 10 := by
      show (parseRerankResponse (fun _ => 1) "doc.md" ⟨['m', 'a', 'y', 'b', 'e'], []⟩).score = 3 / 10
      simp only [parseRerankResponse]
      rw [if_neg (by decide), if_neg (by decide)]
    rw [h2] at h
    norm_num at h

/-- C3 (amended): each reranked document is derived from the single response
token with `confidence = exp(logprob)`: score `0.5 + 0.5·confidence` when
the token starts with `"yes"`, `0.5·(1 − confidence)` when it starts with
`"no"`, and the neutral `0.3` otherwise; a failed LLM call (null generate
result) never raises and contributes the fixed fallback `score = 0`,
`relevant = false`, `confidence = 0` (not the neutral 0.3); the rerank
result list is sorted descending by score. -/
theorem rerank_spec (exp : ℚ → ℚ) :
    (∀ (file : String) (r : GenerateResult),
      (parseRerankResponse exp file r).confidence
          = exp (((r.logprobs.head?).map (fun t => t.logprob)).getD 0) ∧
      (parseRerankResponse exp file r).score =
        (if List.isPrefixOf ['y', 'e', 's'] (normToken r.text) then
          1 / 2 + 1 / 2 * exp (((r.logprobs.head?).map (fun t => t.logprob)).getD 0)
        else if List.isPrefixOf ['n', 'o'] (normToken r.text) then
          1 / 2 * (1 - exp (((r.logprobs.head?).map (fun t => t.logprob)).getD 0))
        else 3 / 10) ∧
      (parseRerankResponse exp file r).relevant
          = List.isPrefixOf ['y', 'e', 's'] (normToken r.text)) ∧
    (∀ file, rerankSingle exp file none = ⟨file, false, 0, 0, [], 0⟩) ∧
    (∀ results : List RerankDocumentResult,
      (rerankSortResults results).Pairwise (fun a b => b.score ≤ a.score) ∧
      (rerankSortResults results).Perm results) := by
  refine ⟨?_, fun file => rfl, ?_⟩
  · intro file r
    by_cases hy : List.isPrefixOf ['y', 'e', 's'] (normToken r.text)
    · refine ⟨?_, ?_, ?_⟩ <;>
        · simp only [parseRerankResponse]
          simp [hy]
    · by_cases hn : List.isPrefixOf ['n', 'o'] (normToken r.text)
      · refine ⟨?_, ?_, ?_⟩ <;>
          · simp only [parseRerankResponse]
            simp [hy, hn]
      · refine ⟨?_, ?_, ?_⟩ <;>
          · simp only [parseRerankResponse]
            simp [hy, hn]
  · intro results
    constructor
    · have hs := @List.sorted_mergeSort RerankDocumentResult
        (fun a b => decide (b.score ≤ a.score))
        (fun a b c hab hbc => by
          rw [decide_eq_true_eq] at *
          exact le_trans hbc hab)
        (fun a b => by
          rcases le_total a.score b.score with h | h <;> simp [h])
        results
      exact hs.imp (fun hab => by rwa [decide_eq_true_eq] at hab)
    · exact List.mergeSort_perm results _

end Qmd
